import Mathlib

/-!
slo-exporter: cardinality-bounded exporter and SLO domain validation

A shallow embedding of

* `pkg/prometheus_exporter/prometheus_exporter.go` (the event exporter), and
* `tools/slo-rules-generator/domain.go` (rule groups and validation of a domain),

followed by theorems about the embedded definitions.

Conventions of the embedding:

* a Go `map[K]V` is a `GoMap K V`: a list of entries with pairwise distinct keys.
  The order of the list is an artefact; statements are phrased through `lookup`,
  `contains`, `keys` and `len`;
* Go `string` is `String`; a Go `int` is an `Int`, and arithmetic on it is brought
  back into the range of a 64-bit `int` by `wrapInt`, as the observation counts of the
  event-key cache need it (`len` of a map stays far below the bound);
* a method with a pointer receiver takes the receiver and returns its next value.
-/

namespace SloExporter

/-! ## Go maps -/

/-- Value stored under `k` in a list of entries, if any. -/
def lookupEntry {K V : Type} [DecidableEq K] (k : K) : List (K × V) → Option V
  | [] => none
  | p :: rest => if p.1 = k then some p.2 else lookupEntry k rest

/-- Assignment `m[k] = v` on a list of entries: overwrite in place, or add a new entry. -/
def storeEntry {K V : Type} [DecidableEq K] (k : K) (v : V) : List (K × V) → List (K × V)
  | [] => [(k, v)]
  | p :: rest => if p.1 = k then (k, v) :: rest else p :: storeEntry k v rest

theorem keys_storeEntry {K V : Type} [DecidableEq K] (k : K) (v : V) (l : List (K × V)) :
    (storeEntry k v l).map Prod.fst =
      if k ∈ l.map Prod.fst then l.map Prod.fst else l.map Prod.fst ++ [k] := by
  induction l with
  | nil => simp [storeEntry]
  | cons p rest ih =>
    by_cases h : p.1 = k
    · simp [storeEntry, h]
    · have h' : ¬ k = p.1 := fun e => h e.symm
      by_cases hm : k ∈ rest.map Prod.fst
      · simp only [storeEntry, h, if_false, List.map_cons, ih, hm, if_true, List.mem_cons,
          or_true]
      · simp only [storeEntry, h, if_false, List.map_cons, ih, hm, List.mem_cons, h',
          or_self, List.cons_append]

theorem nodup_storeEntry {K V : Type} [DecidableEq K] (k : K) (v : V) (l : List (K × V))
    (h : (l.map Prod.fst).Nodup) : ((storeEntry k v l).map Prod.fst).Nodup := by
  rw [keys_storeEntry]
  split
  · exact h
  · rename_i hk
    rw [List.nodup_append]
    refine ⟨h, List.nodup_singleton k, ?_⟩
    intro a ha hb
    rw [List.mem_singleton] at hb
    exact hk (hb ▸ ha)

theorem lookupEntry_storeEntry_self {K V : Type} [DecidableEq K] (k : K) (v : V)
    (l : List (K × V)) : lookupEntry k (storeEntry k v l) = some v := by
  induction l with
  | nil => simp [storeEntry, lookupEntry]
  | cons p rest ih =>
    by_cases h : p.1 = k
    · simp [storeEntry, lookupEntry, h]
    · simp [storeEntry, lookupEntry, h, ih]

theorem lookupEntry_storeEntry_of_ne {K V : Type} [DecidableEq K] {k k' : K} (v : V)
    (l : List (K × V)) (hne : k' ≠ k) :
    lookupEntry k' (storeEntry k v l) = lookupEntry k' l := by
  induction l with
  | nil =>
    have : ¬ k = k' := fun e => hne e.symm
    simp [storeEntry, lookupEntry, this]
  | cons p rest ih =>
    by_cases h : p.1 = k
    · have h1 : ¬ k = k' := fun e => hne e.symm
      have h2 : ¬ p.1 = k' := fun e => hne (e.symm.trans h)
      simp [storeEntry, lookupEntry, h, h1, h2]
    · by_cases h2 : p.1 = k'
      · simp only [storeEntry, if_neg h, lookupEntry, if_pos h2]
      · simp only [storeEntry, if_neg h, lookupEntry, if_neg h2, ih]

theorem lookupEntry_eq_none_iff {K V : Type} [DecidableEq K] (k : K) (l : List (K × V)) :
    lookupEntry k l = none ↔ k ∉ l.map Prod.fst := by
  induction l with
  | nil => simp [lookupEntry]
  | cons p rest ih =>
    by_cases h : p.1 = k
    · simp [lookupEntry, h]
    · have h' : ¬ k = p.1 := fun e => h e.symm
      simp [lookupEntry, h, h', ih]

theorem length_storeEntry {K V : Type} [DecidableEq K] (k : K) (v : V) (l : List (K × V)) :
    (storeEntry k v l).length =
      if k ∈ l.map Prod.fst then l.length else l.length + 1 := by
  have h := congrArg List.length (keys_storeEntry k v l)
  rw [List.length_map] at h
  rw [h]
  split <;> simp

/-- A Go `map[K]V`: finitely many entries, no key twice. -/
structure GoMap (K V : Type) where
  entries : List (K × V)
  nodup : (entries.map Prod.fst).Nodup

namespace GoMap

variable {K V : Type}

theorem ext_entries {a b : GoMap K V} (h : a.entries = b.entries) : a = b := by
  cases a; cases b; cases h; rfl

instance [DecidableEq K] [DecidableEq V] : DecidableEq (GoMap K V) := fun a b =>
  if h : a.entries = b.entries then isTrue (ext_entries h)
  else isFalse (fun e => h (congrArg GoMap.entries e))

/-- The empty map, `map[K]V{}` or `make(map[K]V)`. -/
def empty : GoMap K V := ⟨[], List.nodup_nil⟩

/-- The keys of the map. -/
def keys (m : GoMap K V) : List K := m.entries.map Prod.fst

/-- Go `len(m)`. -/
def len (m : GoMap K V) : Nat := m.entries.length

variable [DecidableEq K]

/-- Go `v, ok := m[k]` as an option. -/
def lookup (m : GoMap K V) (k : K) : Option V := lookupEntry k m.entries

/-- Go `_, ok := m[k]`. -/
def contains (m : GoMap K V) (k : K) : Bool := (m.lookup k).isSome

/-- Go `m[k]` as an expression: the stored value, or the zero value `zero` of `V`. -/
def getD (m : GoMap K V) (k : K) (zero : V) : V := (m.lookup k).getD zero

/-- Go `m[k] = v`. -/
def set (m : GoMap K V) (k : K) (v : V) : GoMap K V :=
  ⟨storeEntry k v m.entries, nodup_storeEntry k v m.entries m.nodup⟩

end GoMap

/-! ## `pkg/prometheus_exporter/prometheus_exporter.go` -/

/-- Go `map[string]string`, also `prometheus.Labels`. -/
abbrev Labels := GoMap String String

/-- Modelled from the spec: `slo_event_producer.SloEventResult`, an outcome taken
from a vocabulary that the configuration defines; the exporter converts it with
`string(...)`. -/
abbrev SloEventResult := String

/-- Modelled from the spec: `slo_event_producer.SloEvent`, `{Result, SloMetadata}`. -/
structure SloEvent where
  Result : SloEventResult
  SloMetadata : Labels
  deriving DecidableEq

/-- The largest Go `int` (of 64 bits, as on the 64-bit platforms). -/
def maxInt : Int := 9223372036854775807

/-- The smallest Go `int` (64 bits). -/
def minInt : Int := -9223372036854775808

/-- The Go `int` that an integer result is stored as: the value of the same residue
modulo `2^64` between `minInt` and `maxInt`. -/
def wrapInt (n : Int) : Int :=
  (n + 9223372036854775808) % 18446744073709551616 - 9223372036854775808

/-- The constant `eventKeyCardinalityLimitReplacement`. -/
def eventKeyCardinalityLimitReplacement : String := "cardinalityLimitExceeded"

/-- The variable `sloEventResultLabel`. -/
def sloEventResultLabel : String := "result"

/-- Modelled from the spec: the counter vector of the metrics registry (the
Prometheus client library, an external collaborator). It is registered with a
label schema `variableLabels`, and holds one counter per series; a series is
identified by the values of its labels, listed in schema order. -/
structure CounterVec where
  variableLabels : List String
  metrics : GoMap (List String) Nat
  deriving DecidableEq

/-- Modelled from the spec: the keys of a label set match a schema exactly (no name
of the schema is missing, no other key is present). -/
def matchesSchema (schema : List String) (labels : Labels) : Bool :=
  schema.all (fun l => labels.contains l) && labels.keys.all (fun k => decide (k ∈ schema))

/-- Modelled from the spec: the series a label set stands for, its values in the
order of the schema. -/
def seriesOf (schema : List String) (labels : Labels) : List String :=
  schema.map (fun l => labels.getD l "")

namespace CounterVec

/-- Modelled from the spec: `c.With(labels).Add(delta)`; `Inc()` is `Add(1)`. The
registry fails (`none`; the Go library panics) when the label set does not match
the schema exactly; otherwise the series is created at 0 if absent and `delta` is
added to it. -/
def withAdd (c : CounterVec) (labels : Labels) (delta : Nat) : Option CounterVec :=
  if matchesSchema c.variableLabels labels then
    some { c with
      metrics := c.metrics.set (seriesOf c.variableLabels labels)
        (c.metrics.getD (seriesOf c.variableLabels labels) 0 + delta) }
  else none

/-- Modelled from the spec: `prometheus.NewCounterVec(opts, labelNames)`, a vector
without series. -/
def new (labelNames : List String) : CounterVec := ⟨labelNames, GoMap.empty⟩

end CounterVec

/-- The struct `PrometheusSloEventExporter`. -/
structure PrometheusSloEventExporter where
  eventsCount : CounterVec
  knownLabels : List String
  validEventResults : List SloEventResult
  eventKeyLabel : String
  eventKeyLimit : Int
  eventKeyCache : GoMap String Int
  deriving DecidableEq

/-- The struct `InvalidSloEventResult`. -/
structure InvalidSloEventResult where
  result : String
  validResults : List SloEventResult
  deriving DecidableEq

/-- The function `New`. -/
def New (labels : List String) (results : List SloEventResult) (eventKeyLabel : String)
    (eventKeyLimit : Int) : PrometheusSloEventExporter :=
  { eventsCount := CounterVec.new (labels ++ [sloEventResultLabel])
    knownLabels := labels ++ [sloEventResultLabel]
    validEventResults := results
    eventKeyLabel := eventKeyLabel
    eventKeyLimit := eventKeyLimit
    eventKeyCache := GoMap.empty }

namespace PrometheusSloEventExporter

/-- The method `checkEventKeyCardinality`: the returned string and the exporter
after the call. The statement `e.eventKeyCache[eventKey]++` is an increment of a Go
`int`. -/
def checkEventKeyCardinality (e : PrometheusSloEventExporter) (eventKey : String) :
    String × PrometheusSloEventExporter :=
  if e.eventKeyLimit = 0 then
    (eventKey, e)
  else
    let ok := e.eventKeyCache.contains eventKey
    if !ok && decide ((e.eventKeyCache.len : Int) + 1 > e.eventKeyLimit) then
      (eventKeyCardinalityLimitReplacement, e)
    else
      (eventKey,
        { e with
          eventKeyCache :=
            e.eventKeyCache.set eventKey (wrapInt (e.eventKeyCache.getD eventKey 0 + 1)) })

end PrometheusSloEventExporter

/-- The loop of `normalizeEventMetadata` over the two maps it has in hand, the pair
`(normalized, eventMetadata)`: an iteration reads `eventMetadata[k]` and assigns
`normalized[k]`. -/
def normalizeLoop (knownMetadata : List String) (maps : Labels × Labels) : Labels × Labels :=
  knownMetadata.foldl
    (fun maps k =>
      let v := maps.2.getD k ""
      (maps.1.set k v, maps.2))
    maps

/-- The function `normalizeEventMetadata`: the map it returns. -/
def normalizeEventMetadata (knownMetadata : List String) (eventMetadata : Labels) : Labels :=
  (normalizeLoop knownMetadata (GoMap.empty, eventMetadata)).1

namespace PrometheusSloEventExporter

/-- The method `isValidResult`. -/
def isValidResult (e : PrometheusSloEventExporter) (result : SloEventResult) : Bool :=
  e.validEventResults.any (fun validEventResult => decide (validEventResult = result))

/-- The second loop of `initializeMetricForGivenMetadata`, over the results still to
visit: `.ok` is the exporter after the loop, `.error` the exporter at the moment the
registry refused a label set. -/
def initializeLoop (e : PrometheusSloEventExporter) (metadataCopy : Labels) :
    List SloEventResult → Except PrometheusSloEventExporter PrometheusSloEventExporter
  | [] => .ok e
  | result :: rest =>
    let metadataCopy := metadataCopy.set sloEventResultLabel result
    match e.eventsCount.withAdd metadataCopy 0 with
    | none => .error e
    | some c => initializeLoop { e with eventsCount := c } metadataCopy rest

/-- The method `initializeMetricForGivenMetadata`. -/
def initializeMetricForGivenMetadata (e : PrometheusSloEventExporter) (metadata : Labels) :
    Except PrometheusSloEventExporter PrometheusSloEventExporter :=
  let metadataCopy : Labels :=
    metadata.entries.foldl (fun c kv => c.set kv.1 kv.2) GoMap.empty
  e.initializeLoop metadataCopy e.validEventResults

end PrometheusSloEventExporter

/-- What a call of `processEvent` does: it returns `nil`, it returns the error
`InvalidSloEventResult`, or the registry panics; each with the exporter as the call
leaves it. -/
inductive ProcessResult where
  | ok (e : PrometheusSloEventExporter)
  | invalidSloEventResult (err : InvalidSloEventResult) (e : PrometheusSloEventExporter)
  | panicked (e : PrometheusSloEventExporter)
  deriving DecidableEq

/-- The exporter as the call left it. -/
def ProcessResult.exporter : ProcessResult → PrometheusSloEventExporter
  | .ok e => e
  | .invalidSloEventResult _ e => e
  | .panicked e => e

namespace PrometheusSloEventExporter

/-- The method `processEvent` (the warning it logs has no effect on the state). -/
def processEvent (e : PrometheusSloEventExporter) (event : SloEvent) : ProcessResult :=
  let normalizedMetadata := normalizeEventMetadata e.knownLabels event.SloMetadata
  if !e.isValidResult event.Result then
    .invalidSloEventResult ⟨event.Result, e.validEventResults⟩ e
  else
    let checked := e.checkEventKeyCardinality (normalizedMetadata.getD e.eventKeyLabel "")
    let normalizedMetadata := normalizedMetadata.set e.eventKeyLabel checked.1
    match checked.2.initializeMetricForGivenMetadata normalizedMetadata with
    | .error e1 => .panicked e1
    | .ok e1 =>
      let normalizedMetadata := normalizedMetadata.set sloEventResultLabel event.Result
      match e1.eventsCount.withAdd normalizedMetadata 1 with
      | none => .panicked e1
      | some c => .ok { e1 with eventsCount := c }

/-- The metadata of an event as `processEvent` hands them to the registry, before the
result label is set: normalised to the known labels, with the value of the event-key
label replaced by what the cardinality check returns for it. -/
def maskedMetadata (e : PrometheusSloEventExporter) (event : SloEvent) : Labels :=
  (normalizeEventMetadata e.knownLabels event.SloMetadata).set e.eventKeyLabel
    (e.checkEventKeyCardinality
      ((normalizeEventMetadata e.knownLabels event.SloMetadata).getD e.eventKeyLabel "")).1

/-- The exporters `e` and `e1` differ at most in the series of the counter vector. -/
def SameButMetrics (e e1 : PrometheusSloEventExporter) : Prop :=
  e1.eventsCount.variableLabels = e.eventsCount.variableLabels ∧
    e1.knownLabels = e.knownLabels ∧ e1.validEventResults = e.validEventResults ∧
    e1.eventKeyLabel = e.eventKeyLabel ∧ e1.eventKeyLimit = e.eventKeyLimit ∧
    e1.eventKeyCache = e.eventKeyCache

/-- A finite sequence of `processEvent` calls on one exporter, as the consumer loop
of `Run` makes them: the exporter after the last call, and whether the sequence was
cut short by a panic. -/
def processEvents (e : PrometheusSloEventExporter) :
    List SloEvent → PrometheusSloEventExporter × Bool
  | [] => (e, false)
  | event :: rest =>
    match e.processEvent event with
    | .ok e1 => processEvents e1 rest
    | .invalidSloEventResult _ e1 => processEvents e1 rest
    | .panicked e1 => (e1, true)

/-- The registry accepts the label sets of the exporter: the schema of the counter
vector is the list of known labels, and the result label and the event-key label are
known labels. -/
def Configured (e : PrometheusSloEventExporter) : Prop :=
  e.eventsCount.variableLabels = e.knownLabels ∧ sloEventResultLabel ∈ e.knownLabels ∧
    e.eventKeyLabel ∈ e.knownLabels

/-- A finite sequence of `checkEventKeyCardinality` calls on one exporter: the
strings the calls return, in order, and the exporter after the last call. -/
def checkEventKeys (e : PrometheusSloEventExporter) :
    List String → List String × PrometheusSloEventExporter
  | [] => ([], e)
  | eventKey :: rest =>
    let checked := e.checkEventKeyCardinality eventKey
    let others := checkEventKeys checked.2 rest
    (checked.1 :: others.1, others.2)

end PrometheusSloEventExporter

/-- The sum of the values of all series of a counter vector. -/
def CounterVec.total (c : CounterVec) : Nat := (c.metrics.entries.map Prod.snd).sum

/-- The variable `errorsTotal` as it is declared: a counter vector with the one
label `type`, without series. -/
def errorsTotal : CounterVec := CounterVec.new ["type"]

/-- The consumer of `Run` at a point of its run: the exporter, the counter vector
`errorsTotal`, and whether a panic has ended the consumer. -/
structure RunState where
  exporter : PrometheusSloEventExporter
  errorsTotal : CounterVec
  panicked : Bool
  deriving DecidableEq

/-- The consumer loop of `Run`, as a left-to-right pass over the events that the
input channel delivers. An error of `processEvent` increments `errorsTotal` for the
type `InvalidResult` and the loop goes on; `processEvent` returns no error of another
type, so the `default` branch (type `Unknown`) is never taken; a panic ends the
consumer. -/
def Run (e : PrometheusSloEventExporter) (errorsTotal : CounterVec) :
    List SloEvent → RunState
  | [] => ⟨e, errorsTotal, false⟩
  | event :: input =>
    match e.processEvent event with
    | .ok e1 => Run e1 errorsTotal input
    | .invalidSloEventResult _ e1 =>
      match errorsTotal.withAdd (GoMap.empty.set "type" "InvalidResult") 1 with
      | none => ⟨e1, errorsTotal, true⟩
      | some c => Run e1 c input
    | .panicked e1 => ⟨e1, errorsTotal, true⟩

/-! ## `tools/slo-rules-generator/domain.go` -/

/-- A Go `error`, represented by its message. -/
abbrev GoError := String

/-- Go `fmt.Sprintf("%v", errs)` for a slice of errors: the messages, separated by
blanks, in square brackets. -/
def fmtErrors (errs : List GoError) : String := "[" ++ " ".intercalate errs ++ "]"

/-- Modelled from the spec: the condition of a burn-rate threshold, `{Class
(optional), Type (optional)}`; an absent name is the empty string. -/
structure Condition where
  Class : String
  Type_ : String
  deriving DecidableEq

/-- Modelled from the spec: a burn-rate threshold, `{Condition, window/threshold
parameters}`; `domain.go` reads the condition only, the parameters are `params`. -/
structure BurnRateThreshold (P : Type) where
  Condition : Condition
  params : P

/-- Modelled from the spec: the alerting configuration, `{Team, Escalate (optional),
BurnRateThresholds}`. -/
structure Alerting (P : Type) where
  Team : String
  Escalate : String
  BurnRateThresholds : List (BurnRateThreshold P)

/-- Modelled from the spec: a class, a mapping from the name of an SLO type to the
class-type definition (of type `T`) it has in the class. -/
abbrev Class (T : Type) := GoMap String T

/-- Modelled from the spec: the classes of a domain, a mapping from class name to
class. -/
abbrev Classes (T : Type) := GoMap String (Class T)

/-- The struct `Domain`. -/
structure Domain (P T : Type) where
  Name : String
  Namespace : String
  Enabled : Bool
  Version : Int
  Alerting : Alerting P
  Classes : Classes T

/-- Modelled from the spec: a rule of the output (`rulefmt.RuleNode` of the external
rule engine): a recording rule has a record name, an alerting rule an alert name;
both have an expression and labels. The helper `yamlStr` wraps a string for this
format; the strings themselves stand here. -/
structure RuleNode where
  Record : String
  Alert : String
  Expr : String
  For : Int
  Labels : SloExporter.Labels
  Annotations : SloExporter.Labels
  deriving DecidableEq

/-- Modelled from the spec: a rule group of the output (`rulefmt.RuleGroup`): a name,
an evaluation interval (a duration in nanoseconds) and its rules in order. -/
structure RuleGroup where
  Name : String
  Interval : Int
  Rules : List RuleNode
  deriving DecidableEq

/-- Go `time.Minute`, in nanoseconds. -/
def minute : Int := 60000000000

/-- The constants `domainLabel`, `namespaceLabel`, `versionLabel`, `enabledLabel`,
`teamLabel` and `escalateLabel`. -/
def domainLabel : String := "slo_domain"

def namespaceLabel : String := "namespace"

def versionLabel : String := "slo_version"

def enabledLabel : String := "enabled"

def teamLabel : String := "team"

def escalateLabel : String := "escalate"

/-- What the theorems ask of the method `Merge` of the generator's `Labels`, which is
defined outside `domain.go`: it is a union of its two label sets. A key that only one
of them has keeps its value; nothing is asked for a key that both have. -/
def IsUnion (merge : Labels → Labels → Labels) : Prop :=
  ∀ (a b : Labels) (k : String),
    (b.lookup k = none → (merge a b).lookup k = a.lookup k) ∧
      (a.lookup k = none → (merge a b).lookup k = b.lookup k)

/-- One union of label sets: a copy of the first, with the entries of the second
assigned over it. -/
def mergeLabels (a b : Labels) : Labels :=
  b.entries.foldl (fun out kv => out.set kv.1 kv.2)
    (a.entries.foldl (fun out kv => out.set kv.1 kv.2) GoMap.empty)

namespace Domain

variable {P T : Type}

/-- The method `DomainName`. -/
def DomainName (d : Domain P T) (configName : String) : String :=
  if d.Name ≠ "" then d.Name else configName

/-- The method `commonLabels`; `fmt.Sprint` of an `int` is its decimal rendering. -/
def commonLabels (d : Domain P T) (domainName : String) : Labels :=
  ((GoMap.empty.set domainLabel domainName).set versionLabel (toString d.Version)).set
    namespaceLabel d.Namespace

/-- The method `stableVersionRule`; `fmt.Sprint` of a `bool` is `true` or `false`.
The method `Merge` of `Labels` is defined outside `domain.go` and is the parameter
`merge`. -/
def stableVersionRule (merge : Labels → Labels → Labels) (d : Domain P T)
    (domainName : String) : RuleNode :=
  let labels : Labels :=
    (GoMap.empty.set teamLabel d.Alerting.Team).set enabledLabel
      (if d.Enabled then "true" else "false")
  let labels := if d.Alerting.Escalate ≠ "" then labels.set escalateLabel d.Alerting.Escalate
    else labels
  { Record := "slo:stable_version"
    Alert := ""
    Expr := "1"
    For := 0
    Labels := merge (d.commonLabels domainName) labels
    Annotations := GoMap.empty }

/-- The method `AsRuleGroups`. The methods `Names` of `Classes` and `AsRules` of a
class are defined outside `domain.go`; they are the parameters `names` and `asRules`
(as is `merge`, see `stableVersionRule`). `d.Classes[className]` of a name that is
not a key is the nil class. -/
def AsRuleGroups (merge : Labels → Labels → Labels)
    (names : SloExporter.Classes T → List String)
    (asRules : SloExporter.Class T → String → Labels → List (BurnRateThreshold P) →
      List RuleNode)
    (d : Domain P T) (configName : String) : List RuleGroup :=
  let domainRulegroup : RuleGroup :=
    { Name := "slo_v" ++ toString d.Version ++ "_slo_exporter_" ++ d.DomainName configName
      Interval := 4 * minute
      Rules := [] }
  let domainRulegroup : RuleGroup :=
    { domainRulegroup with
      Rules := domainRulegroup.Rules ++ [d.stableVersionRule merge (d.DomainName configName)] }
  let out : List RuleGroup := [domainRulegroup]
  (names d.Classes).foldl
    (fun out className =>
      let domainClassRulegroup : RuleGroup :=
        { Name := "slo_v" ++ toString d.Version ++ "_slo_exporter_" ++
            d.DomainName configName ++ "_" ++ className
          Interval := 4 * minute
          Rules := [] }
      let domainClassRulegroup : RuleGroup :=
        { domainClassRulegroup with
          Rules := domainClassRulegroup.Rules ++
            asRules (d.Classes.getD className GoMap.empty) className
              (d.commonLabels (d.DomainName configName)) d.Alerting.BurnRateThresholds }
      out ++ [domainClassRulegroup])
    out

/-- The body of the loop of `validateReferences`: the errors one threshold appends. -/
def validateThreshold (d : Domain P T) (threshold : BurnRateThreshold P) : List GoError :=
  let class_ := threshold.Condition.Class
  let errs1 : List GoError :=
    if class_ ≠ "" then
      if !d.Classes.contains class_ then
        ["class '" ++ class_ ++ "' referenced in condition not defined"]
      else []
    else []
  let sloType := threshold.Condition.Type_
  let errs2 : List GoError :=
    if sloType ≠ "" then
      if class_ ≠ "" then
        if !(d.Classes.getD class_ GoMap.empty).contains sloType then
          ["slo type '" ++ sloType ++ "' referenced in condition not defined for class '"
            ++ class_ ++ "'"]
        else []
      else
        let sloTypeFound := d.Classes.entries.any (fun kv => kv.2.contains sloType)
        if !sloTypeFound then
          ["slo type '" ++ sloType ++ "' referenced in condition not defined in any class"]
        else []
    else []
  errs1 ++ errs2

/-- The method `validateReferences`. -/
def validateReferences (d : Domain P T) : List GoError :=
  d.Alerting.BurnRateThresholds.foldl (fun errs threshold => errs ++ d.validateThreshold threshold) []

/-- The method `IsValid`. The validators of the alerting configuration and of a
class are defined outside `domain.go`; they are the parameters `alertingIsValid` and
`classIsValid`. The classes are visited in the order of the entries of
`d.Classes` (Go leaves the order open; every order is the entry order of some
domain). -/
def IsValid (alertingIsValid : SloExporter.Alerting P → List GoError)
    (classIsValid : SloExporter.Class T → List GoError) (d : Domain P T) : List GoError :=
  let errs : List GoError := []
  let errs :=
    if (alertingIsValid d.Alerting).length > 0 then
      errs ++ ["alerting validation failed: " ++ fmtErrors (alertingIsValid d.Alerting)]
    else errs
  let errs :=
    d.Classes.entries.foldl
      (fun errs kv =>
        if (classIsValid kv.2).length > 0 then
          errs ++ ["class '" ++ kv.1 ++ "' validation failed: " ++ fmtErrors (classIsValid kv.2)]
        else errs)
      errs
  errs ++ d.validateReferences

/-- The domain `d` with the burn-rate thresholds `thresholds` in place of its own; the
classes, and everything else, as in `d`. -/
def withThresholds (d : Domain P T) (thresholds : List (BurnRateThreshold P)) : Domain P T :=
  { d with Alerting := { d.Alerting with BurnRateThresholds := thresholds } }

/-- The references of a threshold are defined: its class, if named, is a class of the
domain; its type, if named, is a type of the named class, or of at least one class
when no class is named. -/
def ReferencesDefined (d : Domain P T) (t : BurnRateThreshold P) : Prop :=
  (t.Condition.Class ≠ "" → d.Classes.contains t.Condition.Class = true) ∧
    (t.Condition.Type_ ≠ "" → t.Condition.Class ≠ "" →
      ∃ cls, d.Classes.lookup t.Condition.Class = some cls ∧
        cls.contains t.Condition.Type_ = true) ∧
    (t.Condition.Type_ ≠ "" → t.Condition.Class = "" →
      ∃ c cls, d.Classes.lookup c = some cls ∧ cls.contains t.Condition.Type_ = true)

end Domain

/-! ## Facts about Go maps -/

namespace GoMap

variable {K V : Type} [DecidableEq K]

theorem lookup_empty (k : K) : (empty : GoMap K V).lookup k = none := rfl

theorem lookup_set_self (m : GoMap K V) (k : K) (v : V) : (m.set k v).lookup k = some v :=
  lookupEntry_storeEntry_self k v m.entries

theorem lookup_set_of_ne (m : GoMap K V) {k k' : K} (v : V) (hne : k' ≠ k) :
    (m.set k v).lookup k' = m.lookup k' :=
  lookupEntry_storeEntry_of_ne v m.entries hne

theorem lookup_set (m : GoMap K V) (k k' : K) (v : V) :
    (m.set k v).lookup k' = if k' = k then some v else m.lookup k' := by
  by_cases h : k' = k
  · rw [if_pos h, h, lookup_set_self]
  · rw [if_neg h, lookup_set_of_ne m v h]

theorem contains_eq_false_iff (m : GoMap K V) (k : K) :
    m.contains k = false ↔ k ∉ m.keys := by
  unfold contains lookup keys
  rw [← lookupEntry_eq_none_iff]
  cases lookupEntry k m.entries <;> simp

theorem contains_iff_mem_keys (m : GoMap K V) (k : K) : m.contains k = true ↔ k ∈ m.keys := by
  have h := contains_eq_false_iff m k
  cases hc : m.contains k
  · simp [h.mp hc]
  · by_contra hk
    simp only [true_iff] at hk
    rw [h.mpr hk] at hc
    exact Bool.false_ne_true hc

theorem contains_set (m : GoMap K V) (k k' : K) (v : V) :
    (m.set k v).contains k' = (decide (k' = k) || m.contains k') := by
  unfold contains
  rw [lookup_set]
  by_cases h : k' = k <;> simp [h]

theorem len_set (m : GoMap K V) (k : K) (v : V) :
    (m.set k v).len = if m.contains k = true then m.len else m.len + 1 := by
  unfold len set
  simp only [length_storeEntry]
  by_cases h : k ∈ m.entries.map Prod.fst
  · rw [if_pos h, if_pos ((contains_iff_mem_keys m k).mpr h)]
  · rw [if_neg h, if_neg (fun hc => h ((contains_iff_mem_keys m k).mp hc))]

theorem getD_set_self (m : GoMap K V) (k : K) (v z : V) : (m.set k v).getD k z = v := by
  simp [getD, lookup_set_self]

end GoMap

/-! ## Facts about the exporter -/

namespace PrometheusSloEventExporter

theorem isValidResult_iff (e : PrometheusSloEventExporter) (result : SloEventResult) :
    e.isValidResult result = true ↔ result ∈ e.validEventResults := by
  unfold isValidResult
  rw [List.any_eq_true]
  constructor
  · rintro ⟨x, hx, hd⟩
    rw [decide_eq_true_eq] at hd
    exact hd ▸ hx
  · intro h
    exact ⟨result, h, by simp⟩

theorem SameButMetrics.refl (e : PrometheusSloEventExporter) : SameButMetrics e e :=
  ⟨rfl, rfl, rfl, rfl, rfl, rfl⟩

theorem SameButMetrics.trans {a b c : PrometheusSloEventExporter}
    (h1 : SameButMetrics a b) (h2 : SameButMetrics b c) : SameButMetrics a c := by
  obtain ⟨a1, a2, a3, a4, a5, a6⟩ := h1
  obtain ⟨b1, b2, b3, b4, b5, b6⟩ := h2
  exact ⟨b1.trans a1, b2.trans a2, b3.trans a3, b4.trans a4, b5.trans a5, b6.trans a6⟩

theorem withAdd_variableLabels {c c1 : CounterVec} {labels : Labels} {delta : Nat}
    (h : c.withAdd labels delta = some c1) : c1.variableLabels = c.variableLabels := by
  unfold CounterVec.withAdd at h
  split at h
  · cases h; rfl
  · cases h

theorem sameButMetrics_of_withAdd (e : PrometheusSloEventExporter) {c1 : CounterVec}
    {labels : Labels} {delta : Nat} (h : e.eventsCount.withAdd labels delta = some c1) :
    SameButMetrics e { e with eventsCount := c1 } :=
  ⟨withAdd_variableLabels h, rfl, rfl, rfl, rfl, rfl⟩

theorem initializeLoop_frame (results : List SloEventResult) :
    ∀ (e : PrometheusSloEventExporter) (metadataCopy : Labels),
      (∀ e1, e.initializeLoop metadataCopy results = .ok e1 → SameButMetrics e e1) ∧
      (∀ e1, e.initializeLoop metadataCopy results = .error e1 → SameButMetrics e e1) := by
  induction results with
  | nil =>
    intro e mc
    constructor
    · intro e1 h
      simp only [initializeLoop] at h
      cases h
      exact SameButMetrics.refl e
    · intro e1 h
      simp only [initializeLoop] at h
      cases h
  | cons r rest ih =>
    intro e mc
    simp only [initializeLoop]
    cases hw : e.eventsCount.withAdd (mc.set sloEventResultLabel r) 0 with
    | none =>
      constructor
      · intro e1 h
        cases h
      · intro e1 h
        cases h
        exact SameButMetrics.refl e
    | some c =>
      have hs := sameButMetrics_of_withAdd e hw
      constructor
      · intro e1 h
        exact hs.trans ((ih _ _).1 e1 h)
      · intro e1 h
        exact hs.trans ((ih _ _).2 e1 h)

theorem checkEventKeyCardinality_frame (e : PrometheusSloEventExporter) (k : String) :
    (e.checkEventKeyCardinality k).2 =
      { e with eventKeyCache := (e.checkEventKeyCardinality k).2.eventKeyCache } := by
  unfold checkEventKeyCardinality
  split
  · rfl
  · simp only
    split <;> rfl

/-- What a call of `processEvent` leaves of the exporter: the configuration is kept,
and the cache is the one the cardinality check (if it ran) left. -/
theorem processEvent_exporter (e : PrometheusSloEventExporter) (event : SloEvent) :
    (e.processEvent event).exporter.eventsCount.variableLabels = e.eventsCount.variableLabels ∧
    (e.processEvent event).exporter.knownLabels = e.knownLabels ∧
    (e.processEvent event).exporter.validEventResults = e.validEventResults ∧
    (e.processEvent event).exporter.eventKeyLabel = e.eventKeyLabel ∧
    (e.processEvent event).exporter.eventKeyLimit = e.eventKeyLimit ∧
    ((e.processEvent event).exporter.eventKeyCache = e.eventKeyCache ∨
      ∃ k, (e.processEvent event).exporter.eventKeyCache =
        (e.checkEventKeyCardinality k).2.eventKeyCache) := by
  unfold processEvent
  simp only
  split
  · exact ⟨rfl, rfl, rfl, rfl, rfl, Or.inl rfl⟩
  · generalize hk : (normalizeEventMetadata e.knownLabels event.SloMetadata).getD
      e.eventKeyLabel "" = k
    generalize hm : (normalizeEventMetadata e.knownLabels event.SloMetadata).set
      e.eventKeyLabel (e.checkEventKeyCardinality k).1 = m
    have hc := checkEventKeyCardinality_frame e k
    have hframe := initializeLoop_frame e.validEventResults (e.checkEventKeyCardinality k).2
      (m.entries.foldl (fun c kv => c.set kv.1 kv.2) GoMap.empty)
    have hv : (e.checkEventKeyCardinality k).2.validEventResults = e.validEventResults := by
      rw [hc]
    have base : SameButMetrics
        { e with eventKeyCache := (e.checkEventKeyCardinality k).2.eventKeyCache }
        (e.checkEventKeyCardinality k).2 := by
      rw [← hc]; exact SameButMetrics.refl _
    unfold initializeMetricForGivenMetadata
    simp only [hv]
    cases hi : (e.checkEventKeyCardinality k).2.initializeLoop
        (m.entries.foldl (fun c kv => c.set kv.1 kv.2) GoMap.empty) e.validEventResults with
    | error e1 =>
      obtain ⟨a1, a2, a3, a4, a5, a6⟩ := base.trans (hframe.2 e1 hi)
      exact ⟨a1, a2, a3, a4, a5, Or.inr ⟨k, a6⟩⟩
    | ok e1 =>
      have h1 := base.trans (hframe.1 e1 hi)
      simp only
      cases hw : e1.eventsCount.withAdd (m.set sloEventResultLabel event.Result) 1 with
      | none =>
        obtain ⟨a1, a2, a3, a4, a5, a6⟩ := h1
        exact ⟨a1, a2, a3, a4, a5, Or.inr ⟨k, a6⟩⟩
      | some c =>
        obtain ⟨a1, a2, a3, a4, a5, a6⟩ := h1.trans (sameButMetrics_of_withAdd e1 hw)
        exact ⟨a1, a2, a3, a4, a5, Or.inr ⟨k, a6⟩⟩

end PrometheusSloEventExporter

/-! ## The exporter: properties -/

open PrometheusSloEventExporter

theorem processEvent_of_valid_ne_invalid (e : PrometheusSloEventExporter) (event : SloEvent)
    (hv : e.isValidResult event.Result = true) (err : InvalidSloEventResult)
    (e1 : PrometheusSloEventExporter) :
    e.processEvent event ≠ .invalidSloEventResult err e1 := by
  unfold processEvent
  simp only [hv, Bool.not_true, Bool.false_eq_true, if_false]
  split
  · intro h; cases h
  · split
    · intro h; cases h
    · intro h; cases h

/-- C2. `processEvent` returns the error `InvalidSloEventResult` if and only if the
result of the event is not one of `validEventResults`; the error then carries the
result of the event and the list of valid results, and the exporter (its counter
registry and its event-key cache) is exactly as before the call. -/
theorem processEvent_invalid_result_iff (e : PrometheusSloEventExporter) (event : SloEvent) :
    ((∃ err e1, e.processEvent event = .invalidSloEventResult err e1) ↔
        event.Result ∉ e.validEventResults) ∧
      (∀ err e1, e.processEvent event = .invalidSloEventResult err e1 →
        err.result = event.Result ∧ err.validResults = e.validEventResults ∧
          e1.eventsCount = e.eventsCount ∧ e1.eventKeyCache = e.eventKeyCache ∧ e1 = e) := by
  by_cases hv : e.isValidResult event.Result = true
  · have hmem := (isValidResult_iff e event.Result).mp hv
    constructor
    · constructor
      · rintro ⟨err, e1, h⟩
        exact absurd h (processEvent_of_valid_ne_invalid e event hv err e1)
      · intro h
        exact absurd hmem h
    · intro err e1 h
      exact absurd h (processEvent_of_valid_ne_invalid e event hv err e1)
  · have hmem : event.Result ∉ e.validEventResults :=
      fun h => hv ((isValidResult_iff e event.Result).mpr h)
    have heq : e.processEvent event =
        .invalidSloEventResult ⟨event.Result, e.validEventResults⟩ e := by
      unfold processEvent
      simp only [hv, Bool.not_false, if_true]
    constructor
    · constructor
      · intro _
        exact hmem
      · intro _
        exact ⟨_, _, heq⟩
    · intro err e1 h
      rw [heq] at h
      cases h
      exact ⟨rfl, rfl, rfl, rfl, rfl⟩

theorem wrapInt_of_inRange (n : Int) (h1 : minInt ≤ n) (h2 : n ≤ maxInt) : wrapInt n = n := by
  unfold wrapInt
  unfold minInt at h1
  unfold maxInt at h2
  omega

theorem wrapInt_succ_ne (n : Int) : wrapInt (n + 1) ≠ n := by
  unfold wrapInt
  omega

theorem wrapInt_add (a b : Int) : wrapInt (wrapInt a + b) = wrapInt (a + b) := by
  unfold wrapInt
  omega

theorem GoMap.set_incr_ne (m : GoMap String Int) (k : String) :
    m.set k (wrapInt (m.getD k 0 + 1)) ≠ m := by
  intro h
  have h1 := GoMap.lookup_set_self m k (wrapInt (m.getD k 0 + 1))
  rw [h] at h1
  have h2 : m.getD k 0 = wrapInt (m.getD k 0 + 1) := by
    conv_lhs => rw [GoMap.getD, h1]
    rfl
  exact wrapInt_succ_ne _ h2.symm

/-- The three ways a call of `checkEventKeyCardinality` can go. -/
theorem checkEventKeyCardinality_cases (e : PrometheusSloEventExporter) (k : String) :
    (e.eventKeyLimit = 0 ∧ e.checkEventKeyCardinality k = (k, e)) ∨
    (e.eventKeyLimit ≠ 0 ∧ e.eventKeyCache.contains k = false ∧
      e.eventKeyLimit ≤ (e.eventKeyCache.len : Int) ∧
      e.checkEventKeyCardinality k = (eventKeyCardinalityLimitReplacement, e)) ∨
    (e.eventKeyLimit ≠ 0 ∧
      ¬ (e.eventKeyCache.contains k = false ∧ e.eventKeyLimit ≤ (e.eventKeyCache.len : Int)) ∧
      e.checkEventKeyCardinality k =
        (k, { e with
          eventKeyCache := e.eventKeyCache.set k (wrapInt (e.eventKeyCache.getD k 0 + 1)) })) := by
  unfold checkEventKeyCardinality
  by_cases h0 : e.eventKeyLimit = 0
  · left
    exact ⟨h0, by simp [h0]⟩
  · right
    by_cases hc : e.eventKeyCache.contains k = false
    · by_cases hl : e.eventKeyLimit ≤ (e.eventKeyCache.len : Int)
      · left
        have hl' : e.eventKeyLimit < (e.eventKeyCache.len : Int) + 1 := by omega
        refine ⟨h0, hc, hl, ?_⟩
        simp [h0, hc, hl']
      · right
        have hl' : ¬ e.eventKeyLimit < (e.eventKeyCache.len : Int) + 1 := by omega
        refine ⟨h0, fun h => hl h.2, ?_⟩
        simp [h0, hc, hl']
    · right
      have hc' : e.eventKeyCache.contains k = true := by
        cases hb : e.eventKeyCache.contains k
        · exact absurd hb hc
        · rfl
      refine ⟨h0, fun h => hc h.1, ?_⟩
      simp [h0, hc']

/-- C4, counterexample. With the limit 0 the event key `cardinalityLimitExceeded` is
returned as it is, so the sentinel is returned and the cache is not touched although
the limit is zero. And with a non-zero limit, a known key whose count is the largest
`int` does not get its count plus 1: the increment wraps to the smallest `int`. -/
theorem checkEventKeyCardinality_sentinel_without_limit :
    ¬ ((((New [] [] "" 0).checkEventKeyCardinality "cardinalityLimitExceeded").1 =
            eventKeyCardinalityLimitReplacement ∧
          ((New [] [] "" 0).checkEventKeyCardinality "cardinalityLimitExceeded").2.eventKeyCache =
            (New [] [] "" 0).eventKeyCache) ↔
        ((New [] [] "" 0).eventKeyLimit ≠ 0 ∧
          (New [] [] "" 0).eventKeyCache.contains "cardinalityLimitExceeded" = false ∧
          (New [] [] "" 0).eventKeyLimit ≤ ((New [] [] "" 0).eventKeyCache.len : Int))) ∧
      (({ New [] [] "" 1 with
            eventKeyCache := GoMap.empty.set "a" 9223372036854775807 } :
          PrometheusSloEventExporter).eventKeyLimit ≠ 0 ∧
        ({ New [] [] "" 1 with
            eventKeyCache := GoMap.empty.set "a" 9223372036854775807 } :
          PrometheusSloEventExporter).eventKeyCache.contains "a" = true ∧
        (({ New [] [] "" 1 with
            eventKeyCache := GoMap.empty.set "a" 9223372036854775807 } :
          PrometheusSloEventExporter).checkEventKeyCardinality "a").2.eventKeyCache.lookup "a" =
          some (-9223372036854775808) ∧
        (({ New [] [] "" 1 with
            eventKeyCache := GoMap.empty.set "a" 9223372036854775807 } :
          PrometheusSloEventExporter).checkEventKeyCardinality "a").2.eventKeyCache.lookup "a" ≠
          some (({ New [] [] "" 1 with
            eventKeyCache := GoMap.empty.set "a" 9223372036854775807 } :
          PrometheusSloEventExporter).eventKeyCache.getD "a" 0 + 1)) := by
  decide

/-- C4, amended. `checkEventKeyCardinality k` returns `k` or the sentinel. It returns
the sentinel and leaves the cache untouched exactly when either the limit is non-zero,
`k` is not a key of the cache and the cache holds at least `eventKeyLimit` keys, or
the limit is zero and `k` is the sentinel string itself. In every other case with a
non-zero limit it returns `k`, and the count of `k` becomes its previous count (0 if
unknown) plus 1 as a Go `int`: the previous count plus 1 when that count is an `int`
below the largest, the smallest `int` when it is the largest; no other entry changes.
With the limit zero it returns `k` and changes nothing. -/
theorem checkEventKeyCardinality_spec (e : PrometheusSloEventExporter) (k : String) :
    ((e.checkEventKeyCardinality k).1 = k ∨
        (e.checkEventKeyCardinality k).1 = eventKeyCardinalityLimitReplacement) ∧
      (((e.checkEventKeyCardinality k).1 = eventKeyCardinalityLimitReplacement ∧
          (e.checkEventKeyCardinality k).2.eventKeyCache = e.eventKeyCache) ↔
        ((e.eventKeyLimit ≠ 0 ∧ e.eventKeyCache.contains k = false ∧
            e.eventKeyLimit ≤ (e.eventKeyCache.len : Int)) ∨
          (e.eventKeyLimit = 0 ∧ k = eventKeyCardinalityLimitReplacement))) ∧
      (e.eventKeyLimit ≠ 0 →
        ¬ (e.eventKeyCache.contains k = false ∧ e.eventKeyLimit ≤ (e.eventKeyCache.len : Int)) →
        (e.checkEventKeyCardinality k).1 = k ∧
          (e.checkEventKeyCardinality k).2.eventKeyCache.lookup k =
            some (wrapInt (e.eventKeyCache.getD k 0 + 1)) ∧
          (minInt ≤ e.eventKeyCache.getD k 0 → e.eventKeyCache.getD k 0 < maxInt →
            (e.checkEventKeyCardinality k).2.eventKeyCache.lookup k =
              some (e.eventKeyCache.getD k 0 + 1)) ∧
          (e.eventKeyCache.getD k 0 = maxInt →
            (e.checkEventKeyCardinality k).2.eventKeyCache.lookup k = some minInt) ∧
          ∀ k1, k1 ≠ k →
            (e.checkEventKeyCardinality k).2.eventKeyCache.lookup k1 =
              e.eventKeyCache.lookup k1) ∧
      (e.eventKeyLimit = 0 → e.checkEventKeyCardinality k = (k, e)) := by
  rcases checkEventKeyCardinality_cases e k with ⟨h0, h⟩ | ⟨h0, hc, hl, h⟩ | ⟨h0, hn, h⟩
  · rw [h]
    refine ⟨Or.inl rfl, ?_, fun hne => absurd h0 hne, fun _ => rfl⟩
    constructor
    · rintro ⟨hk, _⟩
      exact Or.inr ⟨h0, hk⟩
    · rintro (⟨hne, _⟩ | ⟨_, hk⟩)
      · exact absurd h0 hne
      · exact ⟨hk, rfl⟩
  · rw [h]
    refine ⟨Or.inr rfl, ?_, fun _ hn => absurd ⟨hc, hl⟩ hn, fun h0' => absurd h0' h0⟩
    constructor
    · intro _
      exact Or.inl ⟨h0, hc, hl⟩
    · intro _
      exact ⟨rfl, rfl⟩
  · rw [h]
    have hlook : (e.eventKeyCache.set k (wrapInt (e.eventKeyCache.getD k 0 + 1))).lookup k =
        some (wrapInt (e.eventKeyCache.getD k 0 + 1)) := GoMap.lookup_set_self _ _ _
    refine ⟨Or.inl rfl, ?_, fun _ _ => ⟨rfl, hlook, ?_, ?_, ?_⟩, fun h0' => absurd h0' h0⟩
    · constructor
      · rintro ⟨_, hcache⟩
        exact absurd hcache (GoMap.set_incr_ne e.eventKeyCache k)
      · rintro (⟨_, hc, hl⟩ | ⟨h0', _⟩)
        · exact absurd ⟨hc, hl⟩ hn
        · exact absurd h0' h0
    · intro h1 h2
      show (e.eventKeyCache.set k _).lookup k = _
      rw [hlook, wrapInt_of_inRange _ (by omega) (by omega)]
    · intro h1
      show (e.eventKeyCache.set k _).lookup k = _
      rw [hlook, h1]
      rfl
    · intro k1 hk1
      exact GoMap.lookup_set_of_ne _ _ hk1

theorem processEvents_invariant (Inv : PrometheusSloEventExporter → Prop)
    (hstep : ∀ e event, Inv e → Inv (e.processEvent event).exporter) :
    ∀ (events : List SloEvent) (e : PrometheusSloEventExporter),
      Inv e → Inv (e.processEvents events).1 := by
  intro events
  induction events with
  | nil => intro e h; exact h
  | cons event rest ih =>
    intro e h
    have hs := hstep e event h
    unfold processEvents
    cases hp : e.processEvent event with
    | ok e1 => rw [hp] at hs; exact ih e1 hs
    | invalidSloEventResult err e1 => rw [hp] at hs; exact ih e1 hs
    | panicked e1 => rw [hp] at hs; exact hs

theorem checkEventKeyCardinality_len_le (e : PrometheusSloEventExporter) (k : String)
    (h : (e.eventKeyCache.len : Int) ≤ e.eventKeyLimit) :
    ((e.checkEventKeyCardinality k).2.eventKeyCache.len : Int) ≤ e.eventKeyLimit := by
  rcases checkEventKeyCardinality_cases e k with ⟨_, hk⟩ | ⟨_, _, _, hk⟩ | ⟨_, hn, hk⟩
  · rw [hk]; exact h
  · rw [hk]; exact h
  · rw [hk]
    simp only [GoMap.len_set]
    by_cases hc : e.eventKeyCache.contains k = true
    · rw [if_pos hc]; exact h
    · rw [if_neg hc]
      have hc' : e.eventKeyCache.contains k = false := by
        cases hb : e.eventKeyCache.contains k
        · rfl
        · exact absurd hb hc
      have : ¬ e.eventKeyLimit ≤ (e.eventKeyCache.len : Int) := fun hl => hn ⟨hc', hl⟩
      push_cast
      omega

/-- C3. On an exporter built by `New` with a limit `L ≥ 0`, after every finite
sequence of `processEvent` calls the cache holds at most `L` keys (its keys are
pairwise distinct by construction of `GoMap`); and when it holds exactly `L ≥ 1`
keys, `checkEventKeyCardinality` on a value that is not in the cache returns the
sentinel and leaves the exporter, hence the cache, unchanged. -/
theorem eventKeyCache_len_le_limit (labels : List String) (results : List SloEventResult)
    (eventKeyLabel : String) (L : Int) (hL : 0 ≤ L) (events : List SloEvent) :
    (((New labels results eventKeyLabel L).processEvents events).1.eventKeyCache.len : Int) ≤ L ∧
      ((New labels results eventKeyLabel L).processEvents events).1.eventKeyCache.keys.Nodup ∧
      (1 ≤ L →
        (((New labels results eventKeyLabel L).processEvents events).1.eventKeyCache.len : Int) = L →
        ∀ k, ((New labels results eventKeyLabel L).processEvents events).1.eventKeyCache.contains k
            = false →
          ((New labels results eventKeyLabel L).processEvents events).1.checkEventKeyCardinality k =
            (eventKeyCardinalityLimitReplacement,
              ((New labels results eventKeyLabel L).processEvents events).1)) := by
  have hinv := processEvents_invariant
    (fun e => e.eventKeyLimit = L ∧ (e.eventKeyCache.len : Int) ≤ L)
    (by
      intro e event ⟨h1, h2⟩
      obtain ⟨_, _, _, _, hlim, hcache⟩ := processEvent_exporter e event
      refine ⟨hlim.trans h1, ?_⟩
      rcases hcache with hc | ⟨k, hc⟩
      · rw [hc]; exact h2
      · rw [hc, ← h1]
        exact checkEventKeyCardinality_len_le e k (h1 ▸ h2))
    events (New labels results eventKeyLabel L) ⟨rfl, hL⟩
  obtain ⟨hlim, hlen⟩ := hinv
  refine ⟨hlen, GoMap.nodup _, ?_⟩
  intro h1 hfull k hk
  rcases checkEventKeyCardinality_cases
    ((New labels results eventKeyLabel L).processEvents events).1 k with
    ⟨h0, _⟩ | ⟨_, _, _, h⟩ | ⟨_, hn, _⟩
  · rw [hlim] at h0; omega
  · exact h
  · exact absurd ⟨hk, by rw [hlim, hfull]⟩ hn

/-- C3, at a concrete input: limit 1 and two events with different keys. -/
theorem eventKeyCache_len_le_limit_witness :
    (0 : Int) ≤ 1 ∧
      (((New ["key"] ["success"] "key" 1).processEvents
        [⟨"success", GoMap.empty.set "key" "a"⟩,
          ⟨"success", GoMap.empty.set "key" "b"⟩]).1.eventKeyCache.len : Int) ≤ 1 :=
  ⟨by decide,
    (eventKeyCache_len_le_limit ["key"] ["success"] "key" 1 (by decide)
      [⟨"success", GoMap.empty.set "key" "a"⟩, ⟨"success", GoMap.empty.set "key" "b"⟩]).1⟩

/-- C5. On an exporter built by `New` with the limit 0, after every finite sequence
of `processEvent` calls the cache is empty and `checkEventKeyCardinality` returns its
argument, leaving the exporter unchanged. -/
theorem unlimited_never_masks (labels : List String) (results : List SloEventResult)
    (eventKeyLabel : String) (events : List SloEvent) (k : String) :
    ((New labels results eventKeyLabel 0).processEvents events).1.eventKeyCache = GoMap.empty ∧
      ((New labels results eventKeyLabel 0).processEvents events).1.checkEventKeyCardinality k =
        (k, ((New labels results eventKeyLabel 0).processEvents events).1) := by
  have hinv := processEvents_invariant
    (fun e => e.eventKeyLimit = 0 ∧ e.eventKeyCache = GoMap.empty)
    (by
      intro e event ⟨h1, h2⟩
      obtain ⟨_, _, _, _, hlim, hcache⟩ := processEvent_exporter e event
      refine ⟨hlim.trans h1, ?_⟩
      rcases hcache with hc | ⟨k, hc⟩
      · rw [hc]; exact h2
      · rw [hc]
        rcases checkEventKeyCardinality_cases e k with ⟨_, hk⟩ | ⟨h0, _⟩ | ⟨h0, _⟩
        · rw [hk]; exact h2
        · exact absurd h1 h0
        · exact absurd h1 h0)
    events (New labels results eventKeyLabel 0) ⟨rfl, rfl⟩
  obtain ⟨hlim, hcache⟩ := hinv
  refine ⟨hcache, ?_⟩
  rcases checkEventKeyCardinality_cases
    ((New labels results eventKeyLabel 0).processEvents events).1 k with
    ⟨_, hk⟩ | ⟨h0, _⟩ | ⟨h0, _⟩
  · exact hk
  · exact absurd hlim h0
  · exact absurd hlim h0

/-- The loop of `normalizeEventMetadata` leaves `eventMetadata` as it is, and builds
`normalized` by one assignment per name. -/
theorem normalizeLoop_eq (known : List String) :
    ∀ (acc eventMetadata : Labels),
      normalizeLoop known (acc, eventMetadata) =
        (known.foldl (fun normalized k => normalized.set k (eventMetadata.getD k "")) acc,
          eventMetadata) := by
  induction known with
  | nil => intro acc md; rfl
  | cons a rest ih =>
    intro acc md
    unfold normalizeLoop at ih ⊢
    rw [List.foldl_cons, List.foldl_cons]
    exact ih _ _

/-- After the loop of `normalizeEventMetadata`, started from any map `acc`, a name of
`known` holds the value `eventMetadata` has for it (or the empty string), and every
other key is as in `acc`. -/
theorem lookup_normalize_foldl (eventMetadata : Labels) (known : List String) :
    ∀ (acc : Labels) (k : String),
      (known.foldl (fun normalized k => normalized.set k (eventMetadata.getD k "")) acc).lookup k =
        if k ∈ known then some (eventMetadata.getD k "") else acc.lookup k := by
  induction known with
  | nil => intro acc k; simp
  | cons a rest ih =>
    intro acc k
    rw [List.foldl_cons, ih]
    by_cases hr : k ∈ rest
    · simp [hr]
    · by_cases ha : k = a
      · subst ha
        simp [hr, GoMap.lookup_set_self]
      · simp [hr, ha, GoMap.lookup_set_of_ne _ _ ha]

theorem lookup_normalizeEventMetadata (known : List String) (eventMetadata : Labels)
    (k : String) :
    (normalizeEventMetadata known eventMetadata).lookup k =
      if k ∈ known then some (eventMetadata.getD k "") else none := by
  unfold normalizeEventMetadata
  rw [normalizeLoop_eq, lookup_normalize_foldl]
  rfl

theorem mem_keys_normalizeEventMetadata (known : List String) (eventMetadata : Labels)
    (k : String) : k ∈ (normalizeEventMetadata known eventMetadata).keys ↔ k ∈ known := by
  rw [← GoMap.contains_iff_mem_keys, GoMap.contains, lookup_normalizeEventMetadata]
  by_cases h : k ∈ known <;> simp [h]

/-- C6. The keys of `normalizeEventMetadata known md` are exactly the names in
`known`; a name of `known` maps to the value `md` has for it when `md` has the key,
and to the empty string when it has not; a key of `md` outside `known` is not a key
of the result; and `md` is, after the loop, the map it was before. -/
theorem normalizeEventMetadata_spec (known : List String) (md : Labels) :
    (∀ k, k ∈ (normalizeEventMetadata known md).keys ↔ k ∈ known) ∧
      (∀ k v, k ∈ known → md.lookup k = some v →
        (normalizeEventMetadata known md).lookup k = some v) ∧
      (∀ k, k ∈ known → md.lookup k = none →
        (normalizeEventMetadata known md).lookup k = some "") ∧
      (∀ k, k ∈ md.keys → k ∉ known → k ∉ (normalizeEventMetadata known md).keys) ∧
      (normalizeLoop known (GoMap.empty, md)).2 = md := by
  refine ⟨mem_keys_normalizeEventMetadata known md, ?_, ?_, ?_, ?_⟩
  · intro k v hk hv
    rw [lookup_normalizeEventMetadata, if_pos hk, GoMap.getD, hv]
    rfl
  · intro k hk hv
    rw [lookup_normalizeEventMetadata, if_pos hk, GoMap.getD, hv]
    rfl
  · intro k _ hk hmem
    exact hk ((mem_keys_normalizeEventMetadata known md k).mp hmem)
  · rw [normalizeLoop_eq]

theorem storeEntry_of_not_mem {K V : Type} [DecidableEq K] (k : K) (v : V) (l : List (K × V))
    (h : k ∉ l.map Prod.fst) : storeEntry k v l = l ++ [(k, v)] := by
  induction l with
  | nil => rfl
  | cons p rest ih =>
    rw [List.map_cons, List.mem_cons, not_or] at h
    have hp : ¬ p.1 = k := fun e => h.1 e.symm
    simp only [storeEntry, if_neg hp, ih h.2, List.cons_append]

/-- Assigning the entries of a map one by one to a map with other keys appends them. -/
theorem entries_foldl_set {K V : Type} [DecidableEq K] (l : List (K × V)) :
    ∀ acc : GoMap K V, (acc.entries.map Prod.fst ++ l.map Prod.fst).Nodup →
      (l.foldl (fun c kv => c.set kv.1 kv.2) acc).entries = acc.entries ++ l := by
  induction l with
  | nil => intro acc _; simp
  | cons a rest ih =>
    intro acc h
    have ha : a.1 ∉ acc.entries.map Prod.fst := by
      intro hmem
      rw [List.nodup_append] at h
      exact h.2.2 hmem (by simp)
    have hset : (acc.set a.1 a.2).entries = acc.entries ++ [a] := by
      show storeEntry a.1 a.2 acc.entries = acc.entries ++ [a]
      rw [storeEntry_of_not_mem _ _ _ ha]
    rw [List.foldl_cons, ih]
    · rw [hset, List.append_assoc, List.singleton_append]
    · rw [hset]
      simpa [List.append_assoc] using h

/-- The copy loop of `initializeMetricForGivenMetadata` yields the map it copies. -/
theorem copy_eq_self (metadata : Labels) :
    metadata.entries.foldl (fun c kv => c.set kv.1 kv.2) (GoMap.empty : Labels) = metadata := by
  apply GoMap.ext_entries
  rw [entries_foldl_set]
  · rfl
  · simpa [GoMap.empty] using metadata.nodup

theorem matchesSchema_iff (schema : List String) (labels : Labels) :
    matchesSchema schema labels = true ↔
      ∀ k, labels.contains k = true ↔ k ∈ schema := by
  unfold matchesSchema
  rw [Bool.and_eq_true, List.all_eq_true, List.all_eq_true]
  constructor
  · rintro ⟨h1, h2⟩ k
    constructor
    · intro hk
      have := h2 k ((GoMap.contains_iff_mem_keys labels k).mp hk)
      simpa using this
    · intro hk
      exact h1 k hk
  · intro h
    constructor
    · intro k hk
      exact (h k).mpr hk
    · intro k hk
      have := (h k).mp ((GoMap.contains_iff_mem_keys labels k).mpr hk)
      simpa using this

/-- The series of a label set depends on its lookups only. -/
theorem seriesOf_congr (schema : List String) {l l1 : Labels}
    (hl : ∀ k, l1.lookup k = l.lookup k) : seriesOf schema l1 = seriesOf schema l := by
  unfold seriesOf
  apply List.map_congr_left
  intro k _
  simp only [GoMap.getD, hl k]

theorem matchesSchema_congr (schema : List String) {l l1 : Labels}
    (hl : ∀ k, l1.lookup k = l.lookup k) :
    matchesSchema schema l1 = matchesSchema schema l := by
  have h : matchesSchema schema l1 = true ↔ matchesSchema schema l = true := by
    rw [matchesSchema_iff, matchesSchema_iff]
    simp only [GoMap.contains, hl]
  cases h1 : matchesSchema schema l1 <;> cases h2 : matchesSchema schema l <;> simp_all

/-- Two label sets that differ in the value of a schema label stand for different
series. -/
theorem seriesOf_ne (schema : List String) (l l1 : Labels) (k : String)
    (hk : k ∈ schema) (hne : l.getD k "" ≠ l1.getD k "") :
    seriesOf schema l ≠ seriesOf schema l1 := by
  unfold seriesOf
  intro h
  rw [List.map_inj_left] at h
  exact hne (h k hk)

theorem lookup_set_set_result (m mc : Labels) (r : SloEventResult)
    (hmc : ∀ k, k ≠ sloEventResultLabel → mc.lookup k = m.lookup k) (k : String) :
    (mc.set sloEventResultLabel r).lookup k = (m.set sloEventResultLabel r).lookup k := by
  rw [GoMap.lookup_set, GoMap.lookup_set]
  by_cases h : k = sloEventResultLabel
  · rw [if_pos h, if_pos h]
  · rw [if_neg h, if_neg h, hmc k h]

theorem withAdd_of_matches (c : CounterVec) (labels : Labels) (delta : Nat)
    (h : matchesSchema c.variableLabels labels = true) :
    ∃ c1, c.withAdd labels delta = some c1 ∧ c1.variableLabels = c.variableLabels ∧
      c1.metrics = c.metrics.set (seriesOf c.variableLabels labels)
        (c.metrics.getD (seriesOf c.variableLabels labels) 0 + delta) := by
  unfold CounterVec.withAdd
  rw [if_pos h]
  exact ⟨_, rfl, rfl, rfl⟩

/-- The second loop of `initializeMetricForGivenMetadata`, when the label sets match
the schema: it ends without a panic, the series of the visited results exist with
their previous value (0 if they were absent), and no other series is touched. -/
theorem initializeLoop_ok (schema : List String) (m : Labels)
    (hm : ∀ r, matchesSchema schema (m.set sloEventResultLabel r) = true)
    (results : List SloEventResult) :
    ∀ (e : PrometheusSloEventExporter) (mc : Labels),
      e.eventsCount.variableLabels = schema →
      (∀ k, k ≠ sloEventResultLabel → mc.lookup k = m.lookup k) →
      ∃ e1, e.initializeLoop mc results = .ok e1 ∧ SameButMetrics e e1 ∧
        (∀ s, (∃ r, r ∈ results ∧ s = seriesOf schema (m.set sloEventResultLabel r)) →
          e1.eventsCount.metrics.lookup s = some (e.eventsCount.metrics.getD s 0)) ∧
        (∀ s, (¬ ∃ r, r ∈ results ∧ s = seriesOf schema (m.set sloEventResultLabel r)) →
          e1.eventsCount.metrics.lookup s = e.eventsCount.metrics.lookup s) := by
  induction results with
  | nil =>
    intro e mc _ _
    refine ⟨e, rfl, SameButMetrics.refl e, ?_, ?_⟩
    · rintro s ⟨r, hr, _⟩
      cases hr
    · intro s _
      rfl
  | cons r rest ih =>
    intro e mc hschema hmc
    have hlk := lookup_set_set_result m mc r hmc
    have hmatch : matchesSchema e.eventsCount.variableLabels (mc.set sloEventResultLabel r)
        = true := by
      rw [hschema, matchesSchema_congr schema hlk]
      exact hm r
    obtain ⟨c, hw, hcl, hcm⟩ := withAdd_of_matches e.eventsCount _ 0 hmatch
    rw [hschema, seriesOf_congr schema hlk, Nat.add_zero] at hcm
    have hmc1 : ∀ k, k ≠ sloEventResultLabel →
        (mc.set sloEventResultLabel r).lookup k = m.lookup k := by
      intro k hk
      rw [GoMap.lookup_set_of_ne _ _ hk, hmc k hk]
    obtain ⟨e1, h1, hsame, hin, hout⟩ := ih { e with eventsCount := c }
      (mc.set sloEventResultLabel r) (hcl.trans hschema) hmc1
    have hcm1 : ({ e with eventsCount := c } : PrometheusSloEventExporter).eventsCount.metrics =
        e.eventsCount.metrics.set (seriesOf schema (m.set sloEventResultLabel r))
          (e.eventsCount.metrics.getD (seriesOf schema (m.set sloEventResultLabel r)) 0) := hcm
    rw [hcm1] at hin hout
    refine ⟨e1, ?_, ?_, ?_, ?_⟩
    · simp only [initializeLoop, hw]
      exact h1
    · exact (sameButMetrics_of_withAdd e hw).trans hsame
    · rintro s ⟨r1, hr1, hs⟩
      by_cases hrest : ∃ r2, r2 ∈ rest ∧ s = seriesOf schema (m.set sloEventResultLabel r2)
      · rw [hin s hrest]
        simp only [GoMap.getD, GoMap.lookup_set]
        by_cases hsr : s = seriesOf schema (m.set sloEventResultLabel r)
        · rw [if_pos hsr, hsr]
          simp
        · rw [if_neg hsr]
      · have hsr : s = seriesOf schema (m.set sloEventResultLabel r) := by
          rcases List.mem_cons.mp hr1 with h | h
          · rw [hs, h]
          · exact absurd ⟨r1, h, hs⟩ hrest
        rw [hout s hrest, hsr, GoMap.lookup_set_self]
    · intro s hs
      have hrest : ¬ ∃ r2, r2 ∈ rest ∧ s = seriesOf schema (m.set sloEventResultLabel r2) := by
        rintro ⟨r2, hr2, h⟩
        exact hs ⟨r2, List.mem_cons_of_mem _ hr2, h⟩
      have hsr : s ≠ seriesOf schema (m.set sloEventResultLabel r) := by
        intro h
        exact hs ⟨r, List.mem_cons_self _ _, h⟩
      rw [hout s hrest]
      simp only [GoMap.lookup_set, if_neg hsr]

/-- The label sets of an exporter whose event-key label is a known label match the
known labels. -/
theorem maskedMetadata_matches (e : PrometheusSloEventExporter) (event : SloEvent)
    (hresult : sloEventResultLabel ∈ e.knownLabels) (hkey : e.eventKeyLabel ∈ e.knownLabels)
    (r : SloEventResult) :
    matchesSchema e.knownLabels ((e.maskedMetadata event).set sloEventResultLabel r) = true := by
  rw [matchesSchema_iff]
  intro k
  unfold maskedMetadata
  rw [GoMap.contains_set, GoMap.contains_set, Bool.or_eq_true, Bool.or_eq_true,
    decide_eq_true_eq, decide_eq_true_eq, GoMap.contains_iff_mem_keys,
    mem_keys_normalizeEventMetadata]
  constructor
  · rintro (h | h | h)
    · exact h ▸ hresult
    · exact h ▸ hkey
    · exact h
  · intro h
    exact Or.inr (Or.inr h)

/-- C1. On an exporter whose schema and known labels are the configured labels plus
`result`, and whose event-key label is one of the configured labels, an event with a
valid result `r` is processed without error; with `m` the masked metadata of the
event, the counter of `(m, result = r)` is afterwards its previous value (0 if it was
absent) plus 1, the counter of `(m, result = r1)` for every other valid result `r1`
exists and holds its previous value (0 if it was absent), and every series that is
not `(m, result = r1)` for a valid `r1` is as before (absent if it was absent). -/
theorem processEvent_counts (labels : List String) (e : PrometheusSloEventExporter)
    (event : SloEvent)
    (hknown : e.knownLabels = labels ++ [sloEventResultLabel])
    (hschema : e.eventsCount.variableLabels = labels ++ [sloEventResultLabel])
    (hkey : e.eventKeyLabel ∈ labels)
    (hvalid : event.Result ∈ e.validEventResults) :
    ∃ e1, e.processEvent event = .ok e1 ∧
      e1.eventsCount.metrics.lookup
          (seriesOf e.eventsCount.variableLabels
            ((e.maskedMetadata event).set sloEventResultLabel event.Result)) =
        some (e.eventsCount.metrics.getD
          (seriesOf e.eventsCount.variableLabels
            ((e.maskedMetadata event).set sloEventResultLabel event.Result)) 0 + 1) ∧
      (∀ r1, r1 ∈ e.validEventResults → r1 ≠ event.Result →
        e1.eventsCount.metrics.lookup
            (seriesOf e.eventsCount.variableLabels
              ((e.maskedMetadata event).set sloEventResultLabel r1)) =
          some (e.eventsCount.metrics.getD
            (seriesOf e.eventsCount.variableLabels
              ((e.maskedMetadata event).set sloEventResultLabel r1)) 0)) ∧
      (∀ s, (∀ r1, r1 ∈ e.validEventResults →
            s ≠ seriesOf e.eventsCount.variableLabels
              ((e.maskedMetadata event).set sloEventResultLabel r1)) →
        e1.eventsCount.metrics.lookup s = e.eventsCount.metrics.lookup s) := by
  have hks : e.knownLabels = e.eventsCount.variableLabels := hknown.trans hschema.symm
  have hres : sloEventResultLabel ∈ e.knownLabels := by rw [hknown]; simp
  have hkey1 : e.eventKeyLabel ∈ e.knownLabels := by
    rw [hknown]; exact List.mem_append_left _ hkey
  have hm := maskedMetadata_matches e event hres hkey1
  rw [hks] at hm hres
  have hv : e.isValidResult event.Result = true := (isValidResult_iff e event.Result).mpr hvalid
  -- the call, step by step
  unfold processEvent
  simp only [hv, Bool.not_true, Bool.false_eq_true, if_false]
  have hmdef : (normalizeEventMetadata e.knownLabels event.SloMetadata).set e.eventKeyLabel
      (e.checkEventKeyCardinality
        ((normalizeEventMetadata e.knownLabels event.SloMetadata).getD e.eventKeyLabel "")).1
      = e.maskedMetadata event := rfl
  rw [hmdef]
  generalize (normalizeEventMetadata e.knownLabels event.SloMetadata).getD e.eventKeyLabel ""
    = k
  generalize e.maskedMetadata event = m at hm ⊢
  generalize hschema1 : e.eventsCount.variableLabels = schema at hm hres ⊢
  have hc := checkEventKeyCardinality_frame e k
  have hcount : (e.checkEventKeyCardinality k).2.eventsCount = e.eventsCount := by rw [hc]
  have hresults : (e.checkEventKeyCardinality k).2.validEventResults = e.validEventResults := by
    rw [hc]
  obtain ⟨e1, hinit, hsame, hin, hout⟩ := initializeLoop_ok schema m hm e.validEventResults
    (e.checkEventKeyCardinality k).2 m (by rw [hcount, hschema1]) (fun _ _ => rfl)
  rw [hcount] at hin hout
  have hinit1 : (e.checkEventKeyCardinality k).2.initializeMetricForGivenMetadata m = .ok e1 := by
    unfold initializeMetricForGivenMetadata
    simp only [copy_eq_self, hresults]
    exact hinit
  rw [hinit1]
  simp only
  have hschema2 : e1.eventsCount.variableLabels = schema := by
    rw [hsame.1, hcount, hschema1]
  obtain ⟨c, hw, _, hcm⟩ := withAdd_of_matches e1.eventsCount
    (m.set sloEventResultLabel event.Result) 1 (by rw [hschema2]; exact hm _)
  rw [hschema2] at hcm
  rw [hw]
  refine ⟨_, rfl, ?_, ?_, ?_⟩
  · show c.metrics.lookup _ = _
    rw [hcm, GoMap.lookup_set_self, GoMap.getD, hin _ ⟨event.Result, hvalid, rfl⟩]
    rfl
  · intro r1 hr1 hne
    show c.metrics.lookup _ = _
    have hs : seriesOf schema (m.set sloEventResultLabel r1) ≠
        seriesOf schema (m.set sloEventResultLabel event.Result) := by
      apply seriesOf_ne schema _ _ sloEventResultLabel hres
      rw [GoMap.getD_set_self, GoMap.getD_set_self]
      exact hne
    rw [hcm, GoMap.lookup_set_of_ne _ _ hs, hin _ ⟨r1, hr1, rfl⟩]
  · intro s hs
    show c.metrics.lookup _ = _
    rw [hcm, GoMap.lookup_set_of_ne _ _ (hs event.Result hvalid)]
    apply hout
    rintro ⟨r1, hr1, h⟩
    exact hs r1 hr1 h

/-- C1, at a concrete input: the first event of a fresh exporter with the labels
`key` (the event-key label) and `result`. -/
theorem processEvent_counts_witness :
    ∃ e1, (New ["key"] ["success", "fail"] "key" 0).processEvent
          ⟨"success", GoMap.empty.set "key" "a"⟩ = .ok e1 ∧
      e1.eventsCount.metrics.lookup ["a", "success"] = some 1 ∧
      e1.eventsCount.metrics.lookup ["a", "fail"] = some 0 := by
  obtain ⟨e1, h, h1, h2, _⟩ := processEvent_counts ["key"]
    (New ["key"] ["success", "fail"] "key" 0) ⟨"success", GoMap.empty.set "key" "a"⟩
    rfl rfl (by decide) (by decide)
  exact ⟨e1, h, h1, h2 "fail" (by decide) (by decide)⟩

/-- C7, at the failing input: an exporter whose event-key label `event_key` is not
one of its labels. The label set that `processEvent` hands to the registry has the
key `event_key`, which the schema has not; it does not match the schema, and the
call ends in the panic of the registry. -/
theorem processEvent_foreign_eventKeyLabel :
    ((New ["slo_domain"] ["success", "fail"] "event_key" 0).maskedMetadata
        ⟨"success", GoMap.empty.set "slo_domain" "api"⟩).contains "event_key" = true ∧
      "event_key" ∉ (New ["slo_domain"] ["success", "fail"] "event_key" 0).eventsCount.variableLabels ∧
      matchesSchema (New ["slo_domain"] ["success", "fail"] "event_key" 0).eventsCount.variableLabels
        (((New ["slo_domain"] ["success", "fail"] "event_key" 0).maskedMetadata
          ⟨"success", GoMap.empty.set "slo_domain" "api"⟩).set sloEventResultLabel "success")
        = false ∧
      (New ["slo_domain"] ["success", "fail"] "event_key" 0).processEvent
          ⟨"success", GoMap.empty.set "slo_domain" "api"⟩ =
        .panicked (New ["slo_domain"] ["success", "fail"] "event_key" 0) := by
  decide

/-! ## Domain validation: properties -/

theorem mem_of_lookupEntry {K V : Type} [DecidableEq K] {k : K} {v : V} {l : List (K × V)}
    (h : lookupEntry k l = some v) : (k, v) ∈ l := by
  induction l with
  | nil => cases h
  | cons p rest ih =>
    by_cases hp : p.1 = k
    · simp only [lookupEntry, if_pos hp] at h
      cases h
      rw [← hp]
      exact List.mem_cons_self _ _
    · simp only [lookupEntry, if_neg hp] at h
      exact List.mem_cons_of_mem _ (ih h)

theorem lookupEntry_of_mem {K V : Type} [DecidableEq K] {k : K} {v : V} {l : List (K × V)}
    (hl : (l.map Prod.fst).Nodup) (h : (k, v) ∈ l) : lookupEntry k l = some v := by
  induction l with
  | nil => cases h
  | cons p rest ih =>
    rw [List.map_cons, List.nodup_cons] at hl
    rcases List.mem_cons.mp h with h1 | h1
    · rw [← h1]
      simp [lookupEntry]
    · have hp : ¬ p.1 = k := by
        intro e
        apply hl.1
        rw [e]
        exact List.mem_map_of_mem Prod.fst h1
      simp only [lookupEntry, if_neg hp]
      exact ih hl.2 h1

theorem GoMap.mem_entries_iff {K V : Type} [DecidableEq K] (m : GoMap K V) (k : K) (v : V) :
    (k, v) ∈ m.entries ↔ m.lookup k = some v :=
  ⟨lookupEntry_of_mem m.nodup, mem_of_lookupEntry⟩

/-- A loop that appends the errors of each element: the errors so far, then those of
the elements, in order. -/
theorem foldl_append_errors {A : Type} (f : A → List GoError) (l : List A) :
    ∀ acc : List GoError,
      l.foldl (fun errs a => errs ++ f a) acc = acc ++ (l.map f).flatten := by
  induction l with
  | nil => intro acc; simp
  | cons a rest ih =>
    intro acc
    rw [List.foldl_cons, ih, List.map_cons, List.flatten_cons, List.append_assoc]

theorem Domain.validateReferences_eq {P T : Type} (d : Domain P T) :
    d.validateReferences = (d.Alerting.BurnRateThresholds.map d.validateThreshold).flatten := by
  unfold Domain.validateReferences
  rw [foldl_append_errors]
  rfl

theorem GoMap.contains_getD_empty_iff {T : Type} (classes : Classes T) (c t : String) :
    (classes.getD c GoMap.empty).contains t = true ↔
      ∃ cls, classes.lookup c = some cls ∧ cls.contains t = true := by
  unfold GoMap.getD
  cases h : classes.lookup c with
  | none =>
    simp only [Option.getD_none]
    constructor
    · intro hc
      have : (GoMap.empty : Class T).contains t = false := rfl
      rw [this] at hc
      cases hc
    · rintro ⟨cls, hcls, _⟩
      cases hcls
  | some cls0 =>
    simp only [Option.getD_some]
    constructor
    · intro hc
      exact ⟨cls0, rfl, hc⟩
    · rintro ⟨cls, hcls, hc⟩
      cases hcls
      exact hc

theorem GoMap.any_entries_contains_iff {T : Type} (classes : Classes T) (t : String) :
    classes.entries.any (fun kv => kv.2.contains t) = true ↔
      ∃ c cls, classes.lookup c = some cls ∧ cls.contains t = true := by
  rw [List.any_eq_true]
  constructor
  · rintro ⟨⟨c, cls⟩, hmem, hc⟩
    exact ⟨c, cls, (GoMap.mem_entries_iff classes c cls).mp hmem, hc⟩
  · rintro ⟨c, cls, hl, hc⟩
    exact ⟨(c, cls), (GoMap.mem_entries_iff classes c cls).mpr hl, hc⟩

theorem Domain.validateThreshold_eq_nil_iff {P T : Type} (d : Domain P T)
    (t : BurnRateThreshold P) : d.validateThreshold t = [] ↔ d.ReferencesDefined t := by
  unfold Domain.validateThreshold Domain.ReferencesDefined
  simp only [List.append_eq_nil]
  rw [← GoMap.contains_getD_empty_iff, ← GoMap.any_entries_contains_iff]
  by_cases hc : t.Condition.Class = "" <;> by_cases ht : t.Condition.Type_ = "" <;>
    by_cases h1 : d.Classes.contains t.Condition.Class = true <;>
    by_cases h2 : (d.Classes.getD t.Condition.Class GoMap.empty).contains t.Condition.Type_ = true <;>
    by_cases h3 : d.Classes.entries.any (fun kv => kv.2.contains t.Condition.Type_) = true <;>
    simp [hc, ht, h1, h2, h3]

/-- C8. `validateReferences d` is the empty list if and only if every burn-rate
threshold of `d.Alerting` satisfies all of: a non-empty `Condition.Class` is a key of
`d.Classes`; a non-empty `Condition.Type` with a non-empty class is a key of
`d.Classes[Class]`; a non-empty `Condition.Type` with an empty class is a key of at
least one class of `d.Classes`. -/
theorem validateReferences_eq_nil_iff {P T : Type} (d : Domain P T) :
    d.validateReferences = [] ↔
      ∀ t, t ∈ d.Alerting.BurnRateThresholds →
        (t.Condition.Class ≠ "" → d.Classes.contains t.Condition.Class = true) ∧
        (t.Condition.Type_ ≠ "" → t.Condition.Class ≠ "" →
          ∃ cls, d.Classes.lookup t.Condition.Class = some cls ∧
            cls.contains t.Condition.Type_ = true) ∧
        (t.Condition.Type_ ≠ "" → t.Condition.Class = "" →
          ∃ c cls, d.Classes.lookup c = some cls ∧ cls.contains t.Condition.Type_ = true) := by
  rw [Domain.validateReferences_eq, List.flatten_eq_nil_iff]
  constructor
  · intro h t ht
    exact (Domain.validateThreshold_eq_nil_iff d t).mp (h _ (List.mem_map_of_mem _ ht))
  · intro h l hl
    obtain ⟨t, ht, rfl⟩ := List.mem_map.mp hl
    exact (Domain.validateThreshold_eq_nil_iff d t).mpr (h t ht)

/-- A loop that appends one error for each element that has one. -/
theorem foldl_append_if {A : Type} (cond : A → Bool) (g : A → GoError) (l : List A) :
    ∀ acc : List GoError,
      l.foldl (fun errs a => if cond a = true then errs ++ [g a] else errs) acc =
        acc ++ (l.filter cond).map g := by
  induction l with
  | nil => intro acc; simp
  | cons a rest ih =>
    intro acc
    rw [List.foldl_cons, ih]
    by_cases h : cond a = true
    · simp [h]
    · simp [h]

/-- The list `IsValid` returns, pass by pass. -/
theorem isValid_eq_passes {P T : Type} (alertingIsValid : Alerting P → List GoError)
    (classIsValid : Class T → List GoError) (d : Domain P T) :
    Domain.IsValid alertingIsValid classIsValid d =
      ((if alertingIsValid d.Alerting = [] then []
          else ["alerting validation failed: " ++ fmtErrors (alertingIsValid d.Alerting)]) ++
        (d.Classes.entries.filter (fun kv => decide (classIsValid kv.2 ≠ []))).map
          (fun kv => "class '" ++ kv.1 ++ "' validation failed: " ++
            fmtErrors (classIsValid kv.2))) ++
      d.validateReferences := by
  unfold Domain.IsValid
  have hcond : ∀ l : List GoError, (l.length > 0) ↔ l ≠ [] := by
    intro l
    cases l <;> simp
  simp only [hcond]
  have hloop := foldl_append_if (fun kv : String × Class T => decide (classIsValid kv.2 ≠ []))
    (fun kv => "class '" ++ kv.1 ++ "' validation failed: " ++ fmtErrors (classIsValid kv.2))
    d.Classes.entries
  simp only [decide_eq_true_eq] at hloop
  rw [hloop]
  by_cases ha : alertingIsValid d.Alerting = []
  · simp [ha]
  · simp [ha]

/-- C9. When a burn-rate threshold of `d` names a class `c` (non-empty) that is not a
key of `d.Classes`, the list `IsValid` returns is not empty and contains the defect
`class 'c' referenced in condition not defined`, whatever the validators of the
alerting configuration and of the classes report and whatever else `d` holds. -/
theorem IsValid_reports_undefined_class {P T : Type}
    (alertingIsValid : Alerting P → List GoError) (classIsValid : Class T → List GoError)
    (d : Domain P T) (t : BurnRateThreshold P)
    (ht : t ∈ d.Alerting.BurnRateThresholds) (hc : t.Condition.Class ≠ "")
    (hmissing : d.Classes.contains t.Condition.Class = false) :
    Domain.IsValid alertingIsValid classIsValid d ≠ [] ∧
      ("class '" ++ t.Condition.Class ++ "' referenced in condition not defined") ∈
        Domain.IsValid alertingIsValid classIsValid d := by
  have hmem : ("class '" ++ t.Condition.Class ++ "' referenced in condition not defined") ∈
      Domain.IsValid alertingIsValid classIsValid d := by
    rw [isValid_eq_passes, Domain.validateReferences_eq]
    apply List.mem_append_right
    rw [List.mem_flatten]
    refine ⟨d.validateThreshold t, List.mem_map_of_mem _ ht, ?_⟩
    unfold Domain.validateThreshold
    apply List.mem_append_left
    simp [hc, hmissing]
  exact ⟨List.ne_nil_of_mem hmem, hmem⟩

/-- C9, at a concrete input: a threshold for the class `missing` in a domain whose
only class is the well-formed `availability`. -/
theorem IsValid_reports_undefined_class_witness :
    "class 'missing' referenced in condition not defined" ∈
      Domain.IsValid (fun _ => []) (fun _ => [])
        ({ Name := "d", Namespace := "n", Enabled := true, Version := 1,
           Alerting := ⟨"team", "", [⟨⟨"missing", ""⟩, ()⟩]⟩,
           Classes := GoMap.empty.set "availability" (GoMap.empty.set "latency" ()) } :
          Domain Unit Unit) :=
  (IsValid_reports_undefined_class (fun _ => []) (fun _ => [])
    ({ Name := "d", Namespace := "n", Enabled := true, Version := 1,
       Alerting := ⟨"team", "", [⟨⟨"missing", ""⟩, ()⟩]⟩,
       Classes := GoMap.empty.set "availability" (GoMap.empty.set "latency" ()) } :
      Domain Unit Unit)
    ⟨⟨"missing", ""⟩, ()⟩ (List.mem_cons_self _ _) (by decide) (by decide)).2

/-- C10. `IsValid` runs its three passes whatever the earlier ones found: the list
it returns has one entry if the alerting configuration has a defect, one entry for
each class that has a defect, and then the entries of `validateReferences d`; its
last entries are the list `validateReferences d`; and it is empty if and only if the
alerting configuration and every class are valid and `validateReferences d` is
empty. -/
theorem IsValid_accumulates {P T : Type}
    (alertingIsValid : Alerting P → List GoError) (classIsValid : Class T → List GoError)
    (d : Domain P T) :
    (Domain.IsValid alertingIsValid classIsValid d).length =
        (if alertingIsValid d.Alerting = [] then 0 else 1) +
          d.Classes.entries.countP (fun kv => decide (classIsValid kv.2 ≠ [])) +
          d.validateReferences.length ∧
      d.validateReferences <:+ Domain.IsValid alertingIsValid classIsValid d ∧
      (Domain.IsValid alertingIsValid classIsValid d = [] ↔
        alertingIsValid d.Alerting = [] ∧
          (∀ c cls, d.Classes.lookup c = some cls → classIsValid cls = []) ∧
          d.validateReferences = []) := by
  rw [isValid_eq_passes]
  refine ⟨?_, List.suffix_append _ _, ?_⟩
  · rw [List.length_append, List.length_append, List.length_map, List.countP_eq_length_filter]
    by_cases ha : alertingIsValid d.Alerting = []
    · simp [ha]
    · simp [ha]
  · rw [List.append_eq_nil, List.append_eq_nil, List.map_eq_nil_iff, List.filter_eq_nil_iff]
    constructor
    · rintro ⟨⟨h1, h2⟩, h3⟩
      refine ⟨?_, ?_, h3⟩
      · by_contra ha
        rw [if_neg ha] at h1
        cases h1
      · intro c cls hl
        have := h2 (c, cls) ((GoMap.mem_entries_iff d.Classes c cls).mpr hl)
        simpa using this
    · rintro ⟨h1, h2, h3⟩
      refine ⟨⟨by rw [if_pos h1], ?_⟩, h3⟩
      rintro ⟨c, cls⟩ hmem
      have := h2 c cls ((GoMap.mem_entries_iff d.Classes c cls).mp hmem)
      simp [this]

/-! ## Rule groups: properties -/

/-- A loop that appends one group for each name. -/
theorem foldl_append_singleton {A B : Type} (g : A → B) (l : List A) :
    ∀ out : List B, l.foldl (fun out a => out ++ [g a]) out = out ++ l.map g := by
  induction l with
  | nil => intro out; simp
  | cons a rest ih =>
    intro out
    rw [List.foldl_cons, ih, List.map_cons, List.append_assoc, List.singleton_append]

/-- The groups of `AsRuleGroups`: the group of the domain, then one group for each
class name, in the order of `names`. -/
theorem asRuleGroups_eq {P T : Type} (merge : Labels → Labels → Labels)
    (names : Classes T → List String)
    (asRules : Class T → String → Labels → List (BurnRateThreshold P) → List RuleNode)
    (d : Domain P T) (configName : String) :
    d.AsRuleGroups merge names asRules configName =
      { Name := "slo_v" ++ toString d.Version ++ "_slo_exporter_" ++ d.DomainName configName
        Interval := 4 * minute
        Rules := [d.stableVersionRule merge (d.DomainName configName)] } ::
      (names d.Classes).map (fun className =>
        { Name := "slo_v" ++ toString d.Version ++ "_slo_exporter_" ++
            d.DomainName configName ++ "_" ++ className
          Interval := 4 * minute
          Rules := asRules (d.Classes.getD className GoMap.empty) className
            (d.commonLabels (d.DomainName configName)) d.Alerting.BurnRateThresholds }) := by
  unfold Domain.AsRuleGroups
  simp only [List.nil_append]
  rw [foldl_append_singleton]
  rfl

theorem four_minutes : 4 * minute = 4 * 60 * 1000000000 := by
  unfold minute
  norm_num

/-- C11. With `D` the name of the domain (`d.Name` if it is not empty, `configName`
otherwise), `AsRuleGroups` returns `1 + n` groups for the `n` class names of
`Names()`: the first is named `slo_v<Version>_slo_exporter_<D>` and holds exactly the
stable-version rule, the group after the `i`-th class name `c` is named
`slo_v<Version>_slo_exporter_<D>_<c>`, and every group has the interval of 4
minutes. -/
theorem asRuleGroups_groups {P T : Type} (merge : Labels → Labels → Labels)
    (names : Classes T → List String)
    (asRules : Class T → String → Labels → List (BurnRateThreshold P) → List RuleNode)
    (d : Domain P T) (configName : String) :
    (d.Name ≠ "" → d.DomainName configName = d.Name) ∧
      (d.Name = "" → d.DomainName configName = configName) ∧
      (d.AsRuleGroups merge names asRules configName).length = 1 + (names d.Classes).length ∧
      (d.AsRuleGroups merge names asRules configName)[0]? =
        some { Name := "slo_v" ++ toString d.Version ++ "_slo_exporter_" ++
                 d.DomainName configName
               Interval := 4 * 60 * 1000000000
               Rules := [d.stableVersionRule merge (d.DomainName configName)] } ∧
      (∀ i c, (names d.Classes)[i]? = some c →
        ∃ g, (d.AsRuleGroups merge names asRules configName)[i + 1]? = some g ∧
          g.Name = "slo_v" ++ toString d.Version ++ "_slo_exporter_" ++
            d.DomainName configName ++ "_" ++ c) ∧
      (∀ g, g ∈ d.AsRuleGroups merge names asRules configName →
        g.Interval = 4 * 60 * 1000000000) := by
  rw [asRuleGroups_eq, four_minutes]
  refine ⟨?_, ?_, ?_, ?_, ?_, ?_⟩
  · intro h
    unfold Domain.DomainName
    rw [if_pos h]
  · intro h
    unfold Domain.DomainName
    rw [if_neg (not_not.mpr h)]
  · rw [List.length_cons, List.length_map, Nat.add_comm]
  · rw [List.getElem?_cons_zero]
  · intro i c hc
    rw [List.getElem?_cons_succ, List.getElem?_map, hc]
    exact ⟨_, rfl, rfl⟩
  · intro g hg
    rcases List.mem_cons.mp hg with h | h
    · rw [h]
    · obtain ⟨c, _, hc⟩ := List.mem_map.mp h
      rw [← hc]

/-- Assigning entries one by one leaves a key that is none of theirs as it was. -/
theorem lookup_foldl_set_of_none {K V : Type} [DecidableEq K] (k : K) (l : List (K × V)) :
    ∀ acc : GoMap K V, lookupEntry k l = none →
      (l.foldl (fun out kv => out.set kv.1 kv.2) acc).lookup k = acc.lookup k := by
  induction l with
  | nil => intro acc _; rfl
  | cons p rest ih =>
    intro acc h
    by_cases hp : p.1 = k
    · simp [lookupEntry, hp] at h
    · simp only [lookupEntry, if_neg hp] at h
      rw [List.foldl_cons, ih _ h, GoMap.lookup_set_of_ne _ _ (fun e => hp e.symm)]

/-- Assigning the entries of a map one by one gives each of its keys its value. -/
theorem lookup_foldl_set_of_some {K V : Type} [DecidableEq K] (k : K) (v : V)
    (l : List (K × V)) (hl : (l.map Prod.fst).Nodup) :
    ∀ acc : GoMap K V, lookupEntry k l = some v →
      (l.foldl (fun out kv => out.set kv.1 kv.2) acc).lookup k = some v := by
  induction l with
  | nil => intro acc h; cases h
  | cons p rest ih =>
    intro acc h
    rw [List.map_cons, List.nodup_cons] at hl
    by_cases hp : p.1 = k
    · simp only [lookupEntry, if_pos hp] at h
      have hnone : lookupEntry k rest = none := by
        rw [lookupEntry_eq_none_iff, ← hp]
        exact hl.1
      rw [List.foldl_cons, lookup_foldl_set_of_none k rest _ hnone, hp,
        GoMap.lookup_set_self]
      exact h
    · simp only [lookupEntry, if_neg hp] at h
      rw [List.foldl_cons]
      exact ih hl.2 _ h

theorem mergeLabels_isUnion : IsUnion mergeLabels := by
  intro a b k
  unfold mergeLabels
  rw [copy_eq_self]
  constructor
  · intro hb
    exact lookup_foldl_set_of_none k b.entries a hb
  · intro ha
    cases hb : b.lookup k with
    | none => rw [lookup_foldl_set_of_none k b.entries a hb, ha]
    | some v => exact lookup_foldl_set_of_some k v b.entries b.nodup a hb

theorem lookup_commonLabels {P T : Type} (d : Domain P T) (domainName k : String) :
    (d.commonLabels domainName).lookup k =
      if k = "namespace" then some d.Namespace
      else if k = "slo_version" then some (toString d.Version)
      else if k = "slo_domain" then some domainName
      else none := by
  unfold Domain.commonLabels
  simp only [GoMap.lookup_set, GoMap.lookup_empty, namespaceLabel, versionLabel, domainLabel]

theorem lookup_stableVersionLabels {P T : Type} (d : Domain P T) (k : String) :
    (if d.Alerting.Escalate ≠ "" then
        ((GoMap.empty.set teamLabel d.Alerting.Team).set enabledLabel
          (if d.Enabled then "true" else "false") : Labels).set escalateLabel d.Alerting.Escalate
      else
        ((GoMap.empty.set teamLabel d.Alerting.Team).set enabledLabel
          (if d.Enabled then "true" else "false") : Labels)).lookup k =
      if k = "escalate" ∧ d.Alerting.Escalate ≠ "" then some d.Alerting.Escalate
      else if k = "enabled" then some (if d.Enabled then "true" else "false")
      else if k = "team" then some d.Alerting.Team
      else none := by
  by_cases he : d.Alerting.Escalate = ""
  · simp [he, GoMap.lookup_set, GoMap.lookup_empty, teamLabel, enabledLabel]
  · simp [he, GoMap.lookup_set, GoMap.lookup_empty, teamLabel, enabledLabel, escalateLabel]

/-- C12. `stableVersionRule D` is a recording rule with the record name
`slo:stable_version` and the expression `1`. When `Merge` is a union of label sets,
its labels are exactly `slo_domain: D`, `slo_version:` the decimal rendering of
`d.Version`, `namespace: d.Namespace`, `team: d.Alerting.Team`, `enabled: true` or
`false` as `d.Enabled` is, and `escalate: d.Alerting.Escalate` if and only if
`d.Alerting.Escalate` is not empty. -/
theorem stableVersionRule_labels {P T : Type} (merge : Labels → Labels → Labels)
    (hmerge : IsUnion merge) (d : Domain P T) (D : String) :
    (d.stableVersionRule merge D).Record = "slo:stable_version" ∧
      (d.stableVersionRule merge D).Alert = "" ∧
      (d.stableVersionRule merge D).Expr = "1" ∧
      (d.stableVersionRule merge D).Labels.lookup "slo_domain" = some D ∧
      (d.stableVersionRule merge D).Labels.lookup "slo_version" = some (toString d.Version) ∧
      (d.stableVersionRule merge D).Labels.lookup "namespace" = some d.Namespace ∧
      (d.stableVersionRule merge D).Labels.lookup "team" = some d.Alerting.Team ∧
      (d.stableVersionRule merge D).Labels.lookup "enabled" =
        some (if d.Enabled then "true" else "false") ∧
      (d.Alerting.Escalate ≠ "" →
        (d.stableVersionRule merge D).Labels.lookup "escalate" = some d.Alerting.Escalate) ∧
      (d.Alerting.Escalate = "" →
        (d.stableVersionRule merge D).Labels.lookup "escalate" = none) ∧
      (∀ k, k ∉ ["slo_domain", "slo_version", "namespace", "team", "enabled", "escalate"] →
        (d.stableVersionRule merge D).Labels.lookup k = none) := by
  have hleft : ∀ k, k ≠ "escalate" → k ≠ "enabled" → k ≠ "team" →
      (d.stableVersionRule merge D).Labels.lookup k = (d.commonLabels D).lookup k := by
    intro k h1 h2 h3
    apply (hmerge _ _ k).1
    rw [lookup_stableVersionLabels]
    simp [h1, h2, h3]
  have hright : ∀ k, k ≠ "namespace" → k ≠ "slo_version" → k ≠ "slo_domain" →
      (d.stableVersionRule merge D).Labels.lookup k =
        if k = "escalate" ∧ d.Alerting.Escalate ≠ "" then some d.Alerting.Escalate
        else if k = "enabled" then some (if d.Enabled then "true" else "false")
        else if k = "team" then some d.Alerting.Team
        else none := by
    intro k h1 h2 h3
    rw [← lookup_stableVersionLabels]
    apply (hmerge _ _ k).2
    rw [lookup_commonLabels]
    simp [h1, h2, h3]
  refine ⟨rfl, rfl, rfl, ?_, ?_, ?_, ?_, ?_, ?_, ?_, ?_⟩
  · rw [hleft _ (by decide) (by decide) (by decide), lookup_commonLabels]
    simp
  · rw [hleft _ (by decide) (by decide) (by decide), lookup_commonLabels]
    simp
  · rw [hleft _ (by decide) (by decide) (by decide), lookup_commonLabels]
    simp
  · rw [hright _ (by decide) (by decide) (by decide)]
    simp
  · rw [hright _ (by decide) (by decide) (by decide)]
    simp
  · intro he
    rw [hright _ (by decide) (by decide) (by decide)]
    simp [he]
  · intro he
    rw [hright _ (by decide) (by decide) (by decide)]
    simp [he]
  · intro k hk
    simp only [List.mem_cons, List.mem_singleton, not_or, List.mem_nil_iff, or_false] at hk
    obtain ⟨k1, k2, k3, k4, k5, k6⟩ := hk
    rw [hleft k k6 k5 k4, lookup_commonLabels]
    simp [k1, k2, k3]

/-- C12, at a concrete input: a domain with an escalation target, and the union
`mergeLabels`. -/
theorem stableVersionRule_labels_witness :
    IsUnion mergeLabels ∧
      (({ Name := "d", Namespace := "prod", Enabled := true, Version := 6,
          Alerting := ⟨"sre", "oncall", []⟩, Classes := GoMap.empty } :
        Domain Unit Unit).stableVersionRule mergeLabels "d").Labels.lookup "slo_version" =
        some "6" ∧
      (({ Name := "d", Namespace := "prod", Enabled := true, Version := 6,
          Alerting := ⟨"sre", "oncall", []⟩, Classes := GoMap.empty } :
        Domain Unit Unit).stableVersionRule mergeLabels "d").Labels.lookup "escalate" =
        some "oncall" :=
  ⟨mergeLabels_isUnion,
    (stableVersionRule_labels mergeLabels mergeLabels_isUnion
      ({ Name := "d", Namespace := "prod", Enabled := true, Version := 6,
         Alerting := ⟨"sre", "oncall", []⟩, Classes := GoMap.empty } : Domain Unit Unit)
      "d").2.2.2.2.1,
    (stableVersionRule_labels mergeLabels mergeLabels_isUnion
      ({ Name := "d", Namespace := "prod", Enabled := true, Version := 6,
         Alerting := ⟨"sre", "oncall", []⟩, Classes := GoMap.empty } : Domain Unit Unit)
      "d").2.2.2.2.2.2.2.2.1 (by decide)⟩

/-! ## The consumer loop: properties -/

theorem processEvent_of_invalid (e : PrometheusSloEventExporter) (event : SloEvent)
    (hv : e.isValidResult event.Result = false) :
    e.processEvent event = .invalidSloEventResult ⟨event.Result, e.validEventResults⟩ e := by
  unfold processEvent
  simp only [hv, Bool.not_false, if_true]

theorem isValidResult_congr {e e1 : PrometheusSloEventExporter}
    (h : e1.validEventResults = e.validEventResults) : e1.isValidResult = e.isValidResult := by
  funext r
  unfold isValidResult
  rw [h]

theorem configured_processEvent (e : PrometheusSloEventExporter) (event : SloEvent)
    (h : e.Configured) : (e.processEvent event).exporter.Configured := by
  obtain ⟨h1, h2, h3, h4, _, _⟩ := processEvent_exporter e event
  obtain ⟨c1, c2, c3⟩ := h
  unfold Configured
  rw [h1, h2, h4]
  exact ⟨c1, c2, c3⟩

/-- An exporter whose label sets the registry accepts processes an event with a
valid result without error and without panic. -/
theorem processEvent_ok_of_configured (e : PrometheusSloEventExporter) (event : SloEvent)
    (h : e.Configured) (hv : e.isValidResult event.Result = true) :
    ∃ e1, e.processEvent event = .ok e1 := by
  obtain ⟨hschema, hres, hkey⟩ := h
  have hm := maskedMetadata_matches e event hres hkey
  unfold processEvent
  simp only [hv, Bool.not_true, Bool.false_eq_true, if_false]
  have hmdef : (normalizeEventMetadata e.knownLabels event.SloMetadata).set e.eventKeyLabel
      (e.checkEventKeyCardinality
        ((normalizeEventMetadata e.knownLabels event.SloMetadata).getD e.eventKeyLabel "")).1
      = e.maskedMetadata event := rfl
  rw [hmdef]
  generalize (normalizeEventMetadata e.knownLabels event.SloMetadata).getD e.eventKeyLabel ""
    = k
  generalize e.maskedMetadata event = m at hm ⊢
  have hc := checkEventKeyCardinality_frame e k
  have hcount : (e.checkEventKeyCardinality k).2.eventsCount = e.eventsCount := by rw [hc]
  have hresults : (e.checkEventKeyCardinality k).2.validEventResults = e.validEventResults := by
    rw [hc]
  obtain ⟨e1, hinit, hsame, _, _⟩ := initializeLoop_ok e.knownLabels m hm e.validEventResults
    (e.checkEventKeyCardinality k).2 m (by rw [hcount, hschema]) (fun _ _ => rfl)
  have hinit1 : (e.checkEventKeyCardinality k).2.initializeMetricForGivenMetadata m = .ok e1 := by
    unfold initializeMetricForGivenMetadata
    simp only [copy_eq_self, hresults]
    exact hinit
  rw [hinit1]
  simp only
  have hschema2 : e1.eventsCount.variableLabels = e.knownLabels := by
    rw [hsame.1, hcount, hschema]
  obtain ⟨c, hw, _, _⟩ := withAdd_of_matches e1.eventsCount
    (m.set sloEventResultLabel event.Result) 1 (by rw [hschema2]; exact hm _)
  rw [hw]
  exact ⟨_, rfl⟩

/-- A sequence of calls on an exporter whose label sets the registry accepts is never
cut short by a panic. -/
theorem processEvents_not_panicked (events : List SloEvent) :
    ∀ e : PrometheusSloEventExporter, e.Configured → (e.processEvents events).2 = false := by
  induction events with
  | nil => intro e _; rfl
  | cons event rest ih =>
    intro e h
    have hc := configured_processEvent e event h
    unfold processEvents
    cases hv : e.isValidResult event.Result with
    | false =>
      rw [processEvent_of_invalid e event hv]
      exact ih e h
    | true =>
      obtain ⟨e1, h1⟩ := processEvent_ok_of_configured e event h hv
      rw [h1] at hc ⊢
      exact ih e1 hc

theorem configured_New (labels : List String) (results : List SloEventResult)
    (eventKeyLabel : String) (L : Int) (hkey : eventKeyLabel ∈ labels) :
    (New labels results eventKeyLabel L).Configured :=
  ⟨rfl, List.mem_append_right _ (List.mem_singleton.mpr rfl),
    List.mem_append_left _ hkey⟩

/-- The increment of `errorsTotal` for the type `InvalidResult`. -/
theorem errorsTotal_withAdd_invalidResult (m : GoMap (List String) Nat) :
    (CounterVec.mk ["type"] m).withAdd (GoMap.empty.set "type" "InvalidResult") 1 =
      some ⟨["type"], m.set ["InvalidResult"] (m.getD ["InvalidResult"] 0 + 1)⟩ := by
  have hmatch : matchesSchema ["type"] (GoMap.empty.set "type" "InvalidResult") = true := by
    decide
  have hseries : seriesOf ["type"] (GoMap.empty.set "type" "InvalidResult") =
      ["InvalidResult"] := by decide
  unfold CounterVec.withAdd
  simp only [hmatch, hseries, if_true]

/-- An event with an invalid result: the consumer counts it and goes on with the
rest, the exporter as it was. -/
theorem Run_cons_invalid (e : PrometheusSloEventExporter) (m : GoMap (List String) Nat)
    (event : SloEvent) (rest : List SloEvent) (hv : e.isValidResult event.Result = false) :
    Run e ⟨["type"], m⟩ (event :: rest) =
      Run e ⟨["type"], m.set ["InvalidResult"] (m.getD ["InvalidResult"] 0 + 1)⟩ rest := by
  rw [Run, processEvent_of_invalid e event hv]
  simp only [errorsTotal_withAdd_invalidResult]

/-- The consumer loop against the run of `processEvent` over the events with a valid
result: same exporter, same end (panic or not); `errorsTotal` changes in the series
`InvalidResult` only, which counts the invalid events when no panic cut the loop. -/
theorem Run_eq (events : List SloEvent) :
    ∀ (e : PrometheusSloEventExporter) (m : GoMap (List String) Nat),
      (Run e ⟨["type"], m⟩ events).exporter =
          (e.processEvents (events.filter (fun ev => e.isValidResult ev.Result))).1 ∧
        (Run e ⟨["type"], m⟩ events).panicked =
          (e.processEvents (events.filter (fun ev => e.isValidResult ev.Result))).2 ∧
        (∀ s, s ≠ ["InvalidResult"] →
          (Run e ⟨["type"], m⟩ events).errorsTotal.metrics.lookup s = m.lookup s) ∧
        ((Run e ⟨["type"], m⟩ events).panicked = false →
          (Run e ⟨["type"], m⟩ events).errorsTotal.metrics.getD ["InvalidResult"] 0 =
            m.getD ["InvalidResult"] 0 +
              (events.filter (fun ev => !e.isValidResult ev.Result)).length) := by
  induction events with
  | nil =>
    intro e m
    exact ⟨rfl, rfl, fun _ _ => rfl, fun _ => rfl⟩
  | cons event rest ih =>
    intro e m
    cases hv : e.isValidResult event.Result with
    | false =>
      rw [Run_cons_invalid e m event rest hv]
      obtain ⟨h1, h2, h3, h4⟩ := ih e (m.set ["InvalidResult"] (m.getD ["InvalidResult"] 0 + 1))
      simp only [List.filter_cons, hv, Bool.false_eq_true, if_false, Bool.not_false, if_true,
        List.length_cons]
      refine ⟨h1, h2, ?_, ?_⟩
      · intro s hs
        rw [h3 s hs, GoMap.lookup_set_of_ne _ _ hs]
      · intro hp
        rw [h4 hp, GoMap.getD_set_self]
        omega
    | true =>
      simp only [List.filter_cons, hv, if_true, Bool.not_true, Bool.false_eq_true, if_false]
      have hex := processEvent_exporter e event
      rw [Run, processEvents]
      cases hp : e.processEvent event with
      | ok e1 =>
        rw [hp] at hex
        have hcongr := @isValidResult_congr e e1 hex.2.2.1
        have := ih e1 m
        rw [hcongr] at this
        exact this
      | invalidSloEventResult err e1 =>
        exact absurd hp (processEvent_of_valid_ne_invalid e event hv err e1)
      | panicked e1 =>
        refine ⟨rfl, rfl, fun _ _ => rfl, ?_⟩
        intro h
        cases h

/-- The consumer of an exporter whose label sets the registry accepts is never ended
by a panic. -/
theorem Run_not_panicked (e : PrometheusSloEventExporter) (m : GoMap (List String) Nat)
    (events : List SloEvent) (h : e.Configured) :
    (Run e ⟨["type"], m⟩ events).panicked = false := by
  rw [(Run_eq events e m).2.1]
  exact processEvents_not_panicked _ e h

/-- The consumer of `Run` when no call of `processEvent` ends in a panic of the
registry: an event with an invalid result does not stop the loop (the loop goes on
with the rest, the exporter unchanged and the error counted); the counter
`InvalidResult` of `errorsTotal` grows by exactly the number of events whose result is
not valid; the counter `Unknown`, as every other series of `errorsTotal`, is as
before; and the exporter at the end (event counters and event-key cache) is the one
that processing only the events with a valid result, in the same order, leaves. -/
theorem Run_counts_invalid_results (e : PrometheusSloEventExporter)
    (m : GoMap (List String) Nat) (events : List SloEvent)
    (hrun : (Run e ⟨["type"], m⟩ events).panicked = false) :
    (∀ event rest, e.isValidResult event.Result = false →
        Run e ⟨["type"], m⟩ (event :: rest) =
          Run e ⟨["type"], m.set ["InvalidResult"] (m.getD ["InvalidResult"] 0 + 1)⟩ rest) ∧
      (Run e ⟨["type"], m⟩ events).errorsTotal.metrics.getD ["InvalidResult"] 0 =
        m.getD ["InvalidResult"] 0 +
          (events.filter (fun ev => !e.isValidResult ev.Result)).length ∧
      (Run e ⟨["type"], m⟩ events).errorsTotal.metrics.lookup ["Unknown"] =
        m.lookup ["Unknown"] ∧
      (∀ s, s ≠ ["InvalidResult"] →
        (Run e ⟨["type"], m⟩ events).errorsTotal.metrics.lookup s = m.lookup s) ∧
      (Run e ⟨["type"], m⟩ events).exporter =
        (e.processEvents (events.filter (fun ev => e.isValidResult ev.Result))).1 ∧
      (Run e ⟨["type"], m⟩ events).exporter.eventsCount =
        (e.processEvents
          (events.filter (fun ev => e.isValidResult ev.Result))).1.eventsCount ∧
      (Run e ⟨["type"], m⟩ events).exporter.eventKeyCache =
        (e.processEvents
          (events.filter (fun ev => e.isValidResult ev.Result))).1.eventKeyCache := by
  obtain ⟨h1, _, h3, h4⟩ := Run_eq events e m
  refine ⟨fun event rest hv => Run_cons_invalid e m event rest hv, h4 hrun,
    h3 _ (by decide), h3, h1, ?_, ?_⟩
  · rw [h1]
  · rw [h1]

/-- The consumer at a concrete input: a valid, an invalid and a valid event on a fresh
exporter, whose event-key label is one of its labels, and the fresh `errorsTotal`. -/
theorem Run_counts_invalid_results_witness :
    (Run (New ["key"] ["success", "fail"] "key" 1) ⟨["type"], GoMap.empty⟩
        [⟨"success", GoMap.empty.set "key" "a"⟩, ⟨"bad", GoMap.empty.set "key" "b"⟩,
          ⟨"fail", GoMap.empty.set "key" "a"⟩]).panicked = false ∧
      (Run (New ["key"] ["success", "fail"] "key" 1) ⟨["type"], GoMap.empty⟩
        [⟨"success", GoMap.empty.set "key" "a"⟩, ⟨"bad", GoMap.empty.set "key" "b"⟩,
          ⟨"fail", GoMap.empty.set "key" "a"⟩]).errorsTotal.metrics.getD ["InvalidResult"] 0
        = 1 :=
  ⟨by decide,
    (Run_counts_invalid_results (New ["key"] ["success", "fail"] "key" 1) GoMap.empty
      [⟨"success", GoMap.empty.set "key" "a"⟩, ⟨"bad", GoMap.empty.set "key" "b"⟩,
        ⟨"fail", GoMap.empty.set "key" "a"⟩] (by decide)).2.1⟩

/-- C13, at the failing input: an exporter whose event-key label `event_key` is not
one of its labels, a valid event and then an event with the invalid result `bad`. The
first call of `processEvent` ends in the panic of the registry, which ends the
consumer; the second event is never processed, and the counter `InvalidResult` of
`errorsTotal` has grown by 0 although one event of the sequence has an invalid
result. Processing only the valid event ends in the same panic. -/
theorem Run_halts_on_foreign_eventKeyLabel :
    (Run (New ["slo_domain"] ["success", "fail"] "event_key" 0) errorsTotal
        [⟨"success", GoMap.empty.set "slo_domain" "api"⟩,
          ⟨"bad", GoMap.empty.set "slo_domain" "api"⟩]).panicked = true ∧
      (Run (New ["slo_domain"] ["success", "fail"] "event_key" 0) errorsTotal
        [⟨"success", GoMap.empty.set "slo_domain" "api"⟩,
          ⟨"bad", GoMap.empty.set "slo_domain" "api"⟩]).errorsTotal.metrics.getD
          ["InvalidResult"] 0 =
        errorsTotal.metrics.getD ["InvalidResult"] 0 + 0 ∧
      (([⟨"success", GoMap.empty.set "slo_domain" "api"⟩,
          ⟨"bad", GoMap.empty.set "slo_domain" "api"⟩] : List SloEvent).filter
        (fun ev =>
          !(New ["slo_domain"] ["success", "fail"] "event_key" 0).isValidResult ev.Result)).length
        = 1 ∧
      (New ["slo_domain"] ["success", "fail"] "event_key" 0).processEvent
          ⟨"success", GoMap.empty.set "slo_domain" "api"⟩ =
        .panicked (New ["slo_domain"] ["success", "fail"] "event_key" 0) := by
  decide

/-! ## The event-key cache: properties -/

theorem le_wrapInt_succ (v : Int) (h : v < maxInt) : v ≤ wrapInt (v + 1) := by
  unfold wrapInt
  unfold maxInt at h
  omega

/-- A call of `checkEventKeyCardinality` keeps every key of the cache, its count as it
was or incremented as a Go `int` (not smaller, unless it was the largest `int`), and
does not make the cache smaller. -/
theorem checkEventKeyCardinality_keeps (e : PrometheusSloEventExporter) (k : String) :
    (∀ key v, e.eventKeyCache.lookup key = some v →
        ∃ v1, (e.checkEventKeyCardinality k).2.eventKeyCache.lookup key = some v1 ∧
          (v1 = v ∨ v1 = wrapInt (v + 1)) ∧ (v < maxInt → v ≤ v1)) ∧
      e.eventKeyCache.len ≤ (e.checkEventKeyCardinality k).2.eventKeyCache.len := by
  rcases checkEventKeyCardinality_cases e k with ⟨_, h⟩ | ⟨_, _, _, h⟩ | ⟨_, _, h⟩
  · rw [h]
    exact ⟨fun key v hv => ⟨v, hv, Or.inl rfl, fun _ => le_refl v⟩, le_refl _⟩
  · rw [h]
    exact ⟨fun key v hv => ⟨v, hv, Or.inl rfl, fun _ => le_refl v⟩, le_refl _⟩
  · rw [h]
    constructor
    · intro key v hv
      by_cases hk : key = k
      · subst hk
        have hg : e.eventKeyCache.getD key 0 = v := by
          simp only [GoMap.getD, hv, Option.getD_some]
        refine ⟨wrapInt (v + 1), ?_, Or.inr rfl, le_wrapInt_succ v⟩
        show (e.eventKeyCache.set key _).lookup key = _
        rw [GoMap.lookup_set_self, hg]
      · exact ⟨v, by rw [← hv]; exact GoMap.lookup_set_of_ne _ _ hk, Or.inl rfl,
          fun _ => le_refl v⟩
    · show e.eventKeyCache.len ≤ (e.eventKeyCache.set k _).len
      rw [GoMap.len_set]
      split <;> omega

/-- C14, counterexample. An exporter whose cache holds the key `a` with the largest
`int` as its count: after `checkEventKeyCardinality a` the key is still there, with
the smallest `int` as its count, which is not greater than or equal to the previous
count. -/
theorem eventKeyCache_count_wraps :
    ({ New [] [] "" 1 with
          eventKeyCache := GoMap.empty.set "a" 9223372036854775807 } :
        PrometheusSloEventExporter).eventKeyCache.lookup "a" = some 9223372036854775807 ∧
      (({ New [] [] "" 1 with
          eventKeyCache := GoMap.empty.set "a" 9223372036854775807 } :
        PrometheusSloEventExporter).checkEventKeyCardinality "a").2.eventKeyCache.lookup "a" =
        some (-9223372036854775808) ∧
      ¬ ((9223372036854775807 : Int) ≤ -9223372036854775808) := by
  decide

/-- C14, amended. The event-key cache of the exporter that `New` returns is empty; and
a call of `checkEventKeyCardinality` or of `processEvent`, on any exporter, keeps
every key of the cache and does not lower the number of keys (the cache never shrinks
and never evicts); the observation count of a key is afterwards its previous count or
that count incremented as a Go `int`, so it is greater than or equal to its previous
count unless that was the largest `int`, which the increment wraps to the smallest. -/
theorem eventKeyCache_never_shrinks (labels : List String) (results : List SloEventResult)
    (eventKeyLabel : String) (L : Int) (e : PrometheusSloEventExporter) (k : String)
    (event : SloEvent) :
    (New labels results eventKeyLabel L).eventKeyCache = GoMap.empty ∧
      (New labels results eventKeyLabel L).eventKeyCache.len = 0 ∧
      (∀ key v, e.eventKeyCache.lookup key = some v →
        ∃ v1, (e.checkEventKeyCardinality k).2.eventKeyCache.lookup key = some v1 ∧
          (v1 = v ∨ v1 = wrapInt (v + 1)) ∧ (v < maxInt → v ≤ v1)) ∧
      e.eventKeyCache.len ≤ (e.checkEventKeyCardinality k).2.eventKeyCache.len ∧
      (∀ key v, e.eventKeyCache.lookup key = some v →
        ∃ v1, (e.processEvent event).exporter.eventKeyCache.lookup key = some v1 ∧
          (v1 = v ∨ v1 = wrapInt (v + 1)) ∧ (v < maxInt → v ≤ v1)) ∧
      e.eventKeyCache.len ≤ (e.processEvent event).exporter.eventKeyCache.len := by
  refine ⟨rfl, rfl, (checkEventKeyCardinality_keeps e k).1,
    (checkEventKeyCardinality_keeps e k).2, ?_, ?_⟩
  · intro key v hv
    rcases (processEvent_exporter e event).2.2.2.2.2 with h | ⟨k1, h⟩
    · rw [h]
      exact ⟨v, hv, Or.inl rfl, fun _ => le_refl v⟩
    · rw [h]
      exact (checkEventKeyCardinality_keeps e k1).1 key v hv
  · rcases (processEvent_exporter e event).2.2.2.2.2 with h | ⟨k1, h⟩
    · rw [h]
    · rw [h]
      exact (checkEventKeyCardinality_keeps e k1).2

/-- A call for a key of the cache, with a non-zero limit: the key is returned and its
count incremented. -/
theorem checkEventKeyCardinality_of_known (e : PrometheusSloEventExporter) (k : String)
    (hlimit : e.eventKeyLimit ≠ 0) (hk : e.eventKeyCache.contains k = true) :
    e.checkEventKeyCardinality k =
      (k, { e with
        eventKeyCache := e.eventKeyCache.set k (wrapInt (e.eventKeyCache.getD k 0 + 1)) }) := by
  rcases checkEventKeyCardinality_cases e k with ⟨h0, _⟩ | ⟨_, hc, _, _⟩ | ⟨_, _, h⟩
  · exact absurd h0 hlimit
  · rw [hk] at hc
    cases hc
  · exact h

/-- Repeated calls for a key of the cache: each returns the key, the number of keys
stays, and the count of the key is incremented as a Go `int` each time. -/
theorem checkEventKeys_replicate_known (k : String) (n : Nat) :
    ∀ e : PrometheusSloEventExporter, e.eventKeyLimit ≠ 0 → e.eventKeyCache.contains k = true →
      (e.checkEventKeys (List.replicate n k)).1 = List.replicate n k ∧
        (e.checkEventKeys (List.replicate n k)).2.eventKeyCache.len = e.eventKeyCache.len ∧
        (e.checkEventKeys (List.replicate n k)).2.eventKeyCache.contains k = true ∧
        wrapInt ((e.checkEventKeys (List.replicate n k)).2.eventKeyCache.getD k 0) =
          wrapInt (e.eventKeyCache.getD k 0 + (n : Int)) ∧
        (1 ≤ n → (e.checkEventKeys (List.replicate n k)).2.eventKeyCache.getD k 0 =
          wrapInt (e.eventKeyCache.getD k 0 + (n : Int))) := by
  induction n with
  | zero =>
    intro e _ hk
    refine ⟨rfl, rfl, hk, ?_, ?_⟩
    · simp [checkEventKeys]
    · intro h
      omega
  | succ n ih =>
    intro e hlimit hk
    have hstep := checkEventKeyCardinality_of_known e k hlimit hk
    have hk1 : (e.eventKeyCache.set k (wrapInt (e.eventKeyCache.getD k 0 + 1))).contains k
        = true := by
      rw [GoMap.contains_set]
      simp
    obtain ⟨h1, h2, h3, h4, h5⟩ := ih
      { e with eventKeyCache := e.eventKeyCache.set k (wrapInt (e.eventKeyCache.getD k 0 + 1)) }
      hlimit hk1
    simp only [GoMap.getD_set_self] at h4 h5
    have hfinal : (e.checkEventKeys (List.replicate (n + 1) k)).2.eventKeyCache.getD k 0 =
        wrapInt (e.eventKeyCache.getD k 0 + ((n + 1 : Nat) : Int)) := by
      rw [List.replicate_succ, checkEventKeys, hstep]
      simp only
      rcases Nat.eq_zero_or_pos n with hn | hn
      · subst hn
        simp [checkEventKeys, GoMap.getD_set_self]
      · rw [h5 hn, wrapInt_add]
        congr 1
        push_cast
        omega
    refine ⟨?_, ?_, ?_, ?_, fun _ => hfinal⟩
    · rw [List.replicate_succ, checkEventKeys, hstep]
      simp only [h1]
    · rw [List.replicate_succ, checkEventKeys, hstep]
      simp only [h2]
      rw [GoMap.len_set, if_pos hk]
    · rw [List.replicate_succ, checkEventKeys, hstep]
      exact h3
    · rw [hfinal]
      unfold wrapInt
      omega

/-- C15, counterexample. With the limit 1 and the key `a` in the cache with the
largest `int` as its count, one call (`N = 1`) admits `a` and returns it, and the
count of `a` is then the smallest `int`, not the previous count plus 1. -/
theorem repeated_admission_count_wraps :
    ({ New [] [] "" 1 with
          eventKeyCache := GoMap.empty.set "a" 9223372036854775807 } :
        PrometheusSloEventExporter).eventKeyLimit ≠ 0 ∧
      (({ New [] [] "" 1 with
          eventKeyCache := GoMap.empty.set "a" 9223372036854775807 } :
        PrometheusSloEventExporter).checkEventKeyCardinality "a").2.eventKeyCache.contains "a"
        = true ∧
      (({ New [] [] "" 1 with
          eventKeyCache := GoMap.empty.set "a" 9223372036854775807 } :
        PrometheusSloEventExporter).checkEventKeys ["a"]).1 = ["a"] ∧
      (({ New [] [] "" 1 with
          eventKeyCache := GoMap.empty.set "a" 9223372036854775807 } :
        PrometheusSloEventExporter).checkEventKeys ["a"]).2.eventKeyCache.getD "a" 0 =
        -9223372036854775808 ∧
      (({ New [] [] "" 1 with
          eventKeyCache := GoMap.empty.set "a" 9223372036854775807 } :
        PrometheusSloEventExporter).checkEventKeys ["a"]).2.eventKeyCache.getD "a" 0 ≠
        ({ New [] [] "" 1 with
          eventKeyCache := GoMap.empty.set "a" 9223372036854775807 } :
        PrometheusSloEventExporter).eventKeyCache.getD "a" 0 + 1 := by
  decide

/-- C15, amended. With a non-zero limit, when the first check of `k` admits it (`k` is
a key of the cache after the call), `N ≥ 1` consecutive calls
`checkEventKeyCardinality k` all return `k` and leave the cache with as many keys as
it had right after the first call; the observation count of `k` is then its previous
count (0 if unknown) plus `N` as a Go `int`: it has grown by exactly `N` when the
previous count is an `int` and the sum does not pass the largest `int`, and has
wrapped around otherwise. -/
theorem repeated_admission_keeps_size (e : PrometheusSloEventExporter) (k : String) (N : Nat)
    (hlimit : e.eventKeyLimit ≠ 0)
    (hadmitted : (e.checkEventKeyCardinality k).2.eventKeyCache.contains k = true)
    (hN : 1 ≤ N) :
    (e.checkEventKeys (List.replicate N k)).1 = List.replicate N k ∧
      (e.checkEventKeys (List.replicate N k)).2.eventKeyCache.len =
        (e.checkEventKeyCardinality k).2.eventKeyCache.len ∧
      (e.checkEventKeys (List.replicate N k)).2.eventKeyCache.getD k 0 =
        wrapInt (e.eventKeyCache.getD k 0 + (N : Int)) ∧
      (minInt ≤ e.eventKeyCache.getD k 0 → e.eventKeyCache.getD k 0 + (N : Int) ≤ maxInt →
        (e.checkEventKeys (List.replicate N k)).2.eventKeyCache.getD k 0 =
          e.eventKeyCache.getD k 0 + (N : Int)) := by
  obtain ⟨n, rfl⟩ : ∃ n, N = n + 1 := ⟨N - 1, by omega⟩
  have hfirst : e.checkEventKeyCardinality k =
      (k, { e with
        eventKeyCache := e.eventKeyCache.set k (wrapInt (e.eventKeyCache.getD k 0 + 1)) }) := by
    rcases checkEventKeyCardinality_cases e k with ⟨h0, _⟩ | ⟨_, hc, _, h⟩ | ⟨_, _, h⟩
    · exact absurd h0 hlimit
    · rw [h, hc] at hadmitted
      cases hadmitted
    · exact h
  rw [hfirst] at hadmitted
  obtain ⟨h1, h2, _, h4, h5⟩ := checkEventKeys_replicate_known k n
    { e with eventKeyCache := e.eventKeyCache.set k (wrapInt (e.eventKeyCache.getD k 0 + 1)) }
    hlimit hadmitted
  simp only [GoMap.getD_set_self] at h4 h5
  have hfinal : (e.checkEventKeys (List.replicate (n + 1) k)).2.eventKeyCache.getD k 0 =
      wrapInt (e.eventKeyCache.getD k 0 + ((n + 1 : Nat) : Int)) := by
    rw [List.replicate_succ, checkEventKeys, hfirst]
    simp only
    rcases Nat.eq_zero_or_pos n with hn | hn
    · subst hn
      simp [checkEventKeys, GoMap.getD_set_self]
    · rw [h5 hn, wrapInt_add]
      congr 1
      push_cast
      omega
  refine ⟨?_, ?_, hfinal, ?_⟩
  · rw [List.replicate_succ, checkEventKeys, hfirst]
    simp only [h1]
  · rw [List.replicate_succ, checkEventKeys, hfirst]
    simp only [h2]
  · intro hmin hmax
    rw [hfinal]
    exact wrapInt_of_inRange _ (by push_cast at hmax ⊢; omega) hmax

/-- C15, at a concrete input: three calls for the key `a` on a fresh exporter with
the limit 1. -/
theorem repeated_admission_keeps_size_witness :
    ((New ["key"] ["success"] "key" 1).checkEventKeys ["a", "a", "a"]).1 = ["a", "a", "a"] ∧
      ((New ["key"] ["success"] "key" 1).checkEventKeys
        ["a", "a", "a"]).2.eventKeyCache.getD "a" 0 = 3 :=
  ⟨(repeated_admission_keeps_size (New ["key"] ["success"] "key" 1) "a" 3
      (by decide) (by decide) (by decide)).1,
    (repeated_admission_keeps_size (New ["key"] ["success"] "key" 1) "a" 3
      (by decide) (by decide) (by decide)).2.2.2 (by decide) (by decide)⟩

theorem checkEventKeyCardinality_limit (e : PrometheusSloEventExporter) (k : String) :
    (e.checkEventKeyCardinality k).2.eventKeyLimit = e.eventKeyLimit := by
  rw [checkEventKeyCardinality_frame]

/-- A key of the cache stays a key of the cache. -/
theorem contains_checkEventKeyCardinality (e : PrometheusSloEventExporter) (k k1 : String)
    (hk : e.eventKeyCache.contains k = true) :
    (e.checkEventKeyCardinality k1).2.eventKeyCache.contains k = true := by
  cases hl : e.eventKeyCache.lookup k with
  | none => simp [GoMap.contains, hl] at hk
  | some v =>
    obtain ⟨v1, h1, _⟩ := (checkEventKeyCardinality_keeps e k1).1 k v hl
    simp [GoMap.contains, h1]

/-- A value that is masked (unknown, the cache at its limit) stays masked. -/
theorem masked_checkEventKeyCardinality (e : PrometheusSloEventExporter) (k k1 : String)
    (hlimit : e.eventKeyLimit ≠ 0)
    (hk : e.eventKeyCache.contains k = false ∧ e.eventKeyLimit ≤ (e.eventKeyCache.len : Int)) :
    (e.checkEventKeyCardinality k1).2.eventKeyCache.contains k = false ∧
      (e.checkEventKeyCardinality k1).2.eventKeyLimit ≤
        ((e.checkEventKeyCardinality k1).2.eventKeyCache.len : Int) := by
  rcases checkEventKeyCardinality_cases e k1 with ⟨h0, _⟩ | ⟨_, _, _, h⟩ | ⟨_, hn, h⟩
  · exact absurd h0 hlimit
  · rw [h]; exact hk
  · have hk1 : e.eventKeyCache.contains k1 = true := by
      cases hc : e.eventKeyCache.contains k1
      · exact absurd ⟨hc, hk.2⟩ hn
      · rfl
    have hne : k ≠ k1 := by
      intro heq
      rw [heq, hk1] at hk
      cases hk.1
    rw [h]
    constructor
    · show (e.eventKeyCache.set k1 _).contains k = false
      rw [GoMap.contains_set, hk.1]
      simp [hne]
    · show e.eventKeyLimit ≤ ((e.eventKeyCache.set k1 _).len : Int)
      rw [GoMap.len_set, if_pos hk1]
      exact hk.2

/-- The two facts above, over a sequence of calls. -/
theorem checkEventKeys_stable (k : String) (keys : List String) :
    ∀ e : PrometheusSloEventExporter, e.eventKeyLimit ≠ 0 →
      (e.checkEventKeys keys).2.eventKeyLimit = e.eventKeyLimit ∧
        (e.eventKeyCache.contains k = true →
          (e.checkEventKeys keys).2.eventKeyCache.contains k = true) ∧
        (e.eventKeyCache.contains k = false ∧ e.eventKeyLimit ≤ (e.eventKeyCache.len : Int) →
          (e.checkEventKeys keys).2.eventKeyCache.contains k = false ∧
            (e.checkEventKeys keys).2.eventKeyLimit ≤
              ((e.checkEventKeys keys).2.eventKeyCache.len : Int)) := by
  induction keys with
  | nil => intro e _; exact ⟨rfl, fun h => h, fun h => h⟩
  | cons k1 rest ih =>
    intro e hlimit
    have hl := checkEventKeyCardinality_limit e k1
    obtain ⟨i1, i2, i3⟩ := ih (e.checkEventKeyCardinality k1).2 (by rw [hl]; exact hlimit)
    rw [checkEventKeys]
    refine ⟨i1.trans hl, ?_, ?_⟩
    · intro hk
      exact i2 (contains_checkEventKeyCardinality e k k1 hk)
    · intro hk
      exact i3 (masked_checkEventKeyCardinality e k k1 hlimit hk)

/-- C17. With a non-zero limit, whatever calls of `checkEventKeyCardinality` come in
between: when a call for `k` returned `k`, a later call for `k` returns `k`; and when
a call for a `k` other than the sentinel returned the sentinel, a later call for `k`
returns the sentinel. -/
theorem masking_is_stable (e : PrometheusSloEventExporter) (k : String)
    (between : List String) (hlimit : e.eventKeyLimit ≠ 0) :
    ((e.checkEventKeyCardinality k).1 = k →
        (((e.checkEventKeyCardinality k).2.checkEventKeys between).2.checkEventKeyCardinality
          k).1 = k) ∧
      (k ≠ eventKeyCardinalityLimitReplacement →
        (e.checkEventKeyCardinality k).1 = eventKeyCardinalityLimitReplacement →
        (((e.checkEventKeyCardinality k).2.checkEventKeys between).2.checkEventKeyCardinality
          k).1 = eventKeyCardinalityLimitReplacement) := by
  have hl := checkEventKeyCardinality_limit e k
  have hlimit1 : (e.checkEventKeyCardinality k).2.eventKeyLimit ≠ 0 := by rw [hl]; exact hlimit
  obtain ⟨s1, s2, s3⟩ := checkEventKeys_stable k between (e.checkEventKeyCardinality k).2 hlimit1
  have hlimit2 : ((e.checkEventKeyCardinality k).2.checkEventKeys between).2.eventKeyLimit ≠ 0 := by
    rw [s1]; exact hlimit1
  -- a later call on a state where `k` is known, or where `k` is masked
  have known : (e.checkEventKeyCardinality k).2.eventKeyCache.contains k = true →
      (((e.checkEventKeyCardinality k).2.checkEventKeys between).2.checkEventKeyCardinality
        k).1 = k := by
    intro hk
    rw [checkEventKeyCardinality_of_known _ k hlimit2 (s2 hk)]
  have masked : ((e.checkEventKeyCardinality k).2.eventKeyCache.contains k = false ∧
        (e.checkEventKeyCardinality k).2.eventKeyLimit ≤
          ((e.checkEventKeyCardinality k).2.eventKeyCache.len : Int)) →
      (((e.checkEventKeyCardinality k).2.checkEventKeys between).2.checkEventKeyCardinality
        k).1 = eventKeyCardinalityLimitReplacement := by
    intro hk
    obtain ⟨m1, m2⟩ := s3 hk
    rcases checkEventKeyCardinality_cases
      ((e.checkEventKeyCardinality k).2.checkEventKeys between).2 k with
      ⟨h0, _⟩ | ⟨_, _, _, h⟩ | ⟨_, hn, _⟩
    · exact absurd h0 hlimit2
    · rw [h]
    · exact absurd ⟨m1, m2⟩ hn
  rcases checkEventKeyCardinality_cases e k with ⟨h0, _⟩ | ⟨_, hc, hlen, h⟩ | ⟨_, _, h⟩
  · exact absurd h0 hlimit
  · -- the first call masked `k`
    have hm := masked (by rw [h]; exact ⟨hc, hlen⟩)
    constructor
    · intro hr
      rw [h] at hr
      rw [hm]
      exact hr
    · intro _ _
      exact hm
  · -- the first call admitted `k`
    have hk := known (by
      rw [h]
      show (e.eventKeyCache.set k _).contains k = true
      rw [GoMap.contains_set]
      simp)
    constructor
    · intro _
      exact hk
    · intro hne hr
      rw [h] at hr
      exact absurd hr hne

/-- C17, at a concrete input: with the limit 1, `a` is admitted and `b` is masked,
and both stay so after further calls. -/
theorem masking_is_stable_witness :
    ((((New ["key"] ["success"] "key" 1).checkEventKeyCardinality "a").2.checkEventKeys
        ["b", "c"]).2.checkEventKeyCardinality "a").1 = "a" :=
  (masking_is_stable (New ["key"] ["success"] "key" 1) "a" ["b", "c"] (by decide)).1
    (by decide)

/-- With a negative limit and an empty cache every value is masked. -/
theorem checkEventKeyCardinality_of_negative (e : PrometheusSloEventExporter) (k : String)
    (hneg : e.eventKeyLimit < 0) (hempty : e.eventKeyCache = GoMap.empty) :
    e.checkEventKeyCardinality k = (eventKeyCardinalityLimitReplacement, e) := by
  rcases checkEventKeyCardinality_cases e k with ⟨h0, _⟩ | ⟨_, _, _, h⟩ | ⟨_, hn, _⟩
  · omega
  · exact h
  · exfalso
    apply hn
    rw [hempty]
    constructor
    · rfl
    · have : (GoMap.empty : GoMap String Int).len = 0 := rfl
      rw [this]
      push_cast
      omega

theorem checkEventKeys_of_negative (keys : List String) (e : PrometheusSloEventExporter)
    (hneg : e.eventKeyLimit < 0) (hempty : e.eventKeyCache = GoMap.empty) :
    e.checkEventKeys keys =
      (List.replicate keys.length eventKeyCardinalityLimitReplacement, e) := by
  induction keys with
  | nil => rfl
  | cons k rest ih =>
    rw [checkEventKeys, checkEventKeyCardinality_of_negative e k hneg hempty]
    simp only [ih, List.length_cons, List.replicate_succ]

/-- C18. On an exporter built by `New` with a negative limit, after every finite
sequence of `processEvent` calls and then of `checkEventKeyCardinality` calls, the
cache is empty, every one of these calls of `checkEventKeyCardinality` has returned
the sentinel, and so does a further call, for every string `k`, leaving the exporter
as it is: a negative limit masks every event-key value. -/
theorem negative_limit_masks_every_key (labels : List String) (results : List SloEventResult)
    (eventKeyLabel : String) (L : Int) (hL : L < 0) (events : List SloEvent)
    (keys : List String) (k : String) :
    ((New labels results eventKeyLabel L).processEvents events).1.eventKeyCache = GoMap.empty ∧
      (((New labels results eventKeyLabel L).processEvents events).1.checkEventKeys keys).1 =
        List.replicate keys.length eventKeyCardinalityLimitReplacement ∧
      (((New labels results eventKeyLabel L).processEvents events).1.checkEventKeys
        keys).2.eventKeyCache = GoMap.empty ∧
      (((New labels results eventKeyLabel L).processEvents events).1.checkEventKeys
          keys).2.checkEventKeyCardinality k =
        (eventKeyCardinalityLimitReplacement,
          (((New labels results eventKeyLabel L).processEvents events).1.checkEventKeys
            keys).2) := by
  have hinv := processEvents_invariant
    (fun e => e.eventKeyLimit = L ∧ e.eventKeyCache = GoMap.empty)
    (by
      intro e event ⟨h1, h2⟩
      obtain ⟨_, _, _, _, hlim, hcache⟩ := processEvent_exporter e event
      refine ⟨hlim.trans h1, ?_⟩
      rcases hcache with hc | ⟨k1, hc⟩
      · rw [hc]; exact h2
      · rw [hc, checkEventKeyCardinality_of_negative e k1 (by rw [h1]; exact hL) h2]
        exact h2)
    events (New labels results eventKeyLabel L) ⟨rfl, rfl⟩
  obtain ⟨hlim, hcache⟩ := hinv
  have hneg : ((New labels results eventKeyLabel L).processEvents events).1.eventKeyLimit < 0 := by
    rw [hlim]; exact hL
  rw [checkEventKeys_of_negative keys _ hneg hcache]
  exact ⟨hcache, rfl, hcache, checkEventKeyCardinality_of_negative _ k hneg hcache⟩

/-- C18, at a concrete input: the limit -1, one event, then calls for `a` and `b`. -/
theorem negative_limit_masks_every_key_witness :
    (-1 : Int) < 0 ∧
      (((New ["key"] ["success"] "key" (-1)).processEvents
        [⟨"success", GoMap.empty.set "key" "a"⟩]).1.checkEventKeys ["a", "b"]).1 =
        ["cardinalityLimitExceeded", "cardinalityLimitExceeded"] :=
  ⟨by decide,
    (negative_limit_masks_every_key ["key"] ["success"] "key" (-1) (by decide)
      [⟨"success", GoMap.empty.set "key" "a"⟩] ["a", "b"] "a").2.1⟩

/-! ## Conservation of events -/

theorem sum_storeEntry {K : Type} [DecidableEq K] (k : K) (v : Nat) (l : List (K × Nat)) :
    ((storeEntry k v l).map Prod.snd).sum + (lookupEntry k l).getD 0 =
      (l.map Prod.snd).sum + v := by
  induction l with
  | nil => simp [storeEntry, lookupEntry]
  | cons p rest ih =>
    by_cases hp : p.1 = k
    · simp only [storeEntry, lookupEntry, if_pos hp, List.map_cons, List.sum_cons,
        Option.getD_some]
      omega
    · simp only [storeEntry, lookupEntry, if_neg hp, List.map_cons, List.sum_cons]
      omega

/-- Adding `delta` to a series adds `delta` to the sum of all series. -/
theorem total_withAdd {c c1 : CounterVec} {labels : Labels} {delta : Nat}
    (h : c.withAdd labels delta = some c1) : c1.total = c.total + delta := by
  unfold CounterVec.withAdd at h
  split at h
  · cases h
    have hs := sum_storeEntry (seriesOf c.variableLabels labels)
      (c.metrics.getD (seriesOf c.variableLabels labels) 0 + delta) c.metrics.entries
    unfold CounterVec.total
    show ((storeEntry _ _ c.metrics.entries).map Prod.snd).sum = _
    simp only [GoMap.getD, GoMap.lookup] at hs ⊢
    omega
  · cases h

/-- The initialisation loop leaves the sum of all series as it is. -/
theorem total_initializeLoop (results : List SloEventResult) :
    ∀ (e e1 : PrometheusSloEventExporter) (metadataCopy : Labels),
      e.initializeLoop metadataCopy results = .ok e1 →
        e1.eventsCount.total = e.eventsCount.total := by
  induction results with
  | nil =>
    intro e e1 mc h
    simp only [initializeLoop] at h
    cases h
    rfl
  | cons r rest ih =>
    intro e e1 mc h
    simp only [initializeLoop] at h
    cases hw : e.eventsCount.withAdd (mc.set sloEventResultLabel r) 0 with
    | none =>
      rw [hw] at h
      cases h
    | some c =>
      rw [hw] at h
      have := ih _ e1 _ h
      rw [this]
      exact total_withAdd hw

/-- A call of `processEvent` that returns `nil` has added 1 to the sum of all
series. -/
theorem total_processEvent_ok (e e1 : PrometheusSloEventExporter) (event : SloEvent)
    (h : e.processEvent event = .ok e1) :
    e1.eventsCount.total = e.eventsCount.total + 1 := by
  unfold processEvent at h
  simp only at h
  split at h
  · cases h
  · generalize (normalizeEventMetadata e.knownLabels event.SloMetadata).getD
      e.eventKeyLabel "" = k at h
    generalize (normalizeEventMetadata e.knownLabels event.SloMetadata).set
      e.eventKeyLabel (e.checkEventKeyCardinality k).1 = m at h
    have hc := checkEventKeyCardinality_frame e k
    have hcount : (e.checkEventKeyCardinality k).2.eventsCount = e.eventsCount := by rw [hc]
    unfold initializeMetricForGivenMetadata at h
    simp only at h
    cases hi : (e.checkEventKeyCardinality k).2.initializeLoop
        (m.entries.foldl (fun c kv => c.set kv.1 kv.2) GoMap.empty)
        (e.checkEventKeyCardinality k).2.validEventResults with
    | error e2 =>
      rw [hi] at h
      cases h
    | ok e2 =>
      rw [hi] at h
      simp only at h
      have ht := total_initializeLoop _ _ _ _ hi
      rw [hcount] at ht
      cases hw : e2.eventsCount.withAdd (m.set sloEventResultLabel event.Result) 1 with
      | none =>
        rw [hw] at h
        cases h
      | some c =>
        rw [hw] at h
        cases h
        show c.total = _
        rw [total_withAdd hw, ht]

/-- On an exporter whose label sets the registry accepts, a sequence of calls adds
to the sum of all series the number of its events with a valid result. -/
theorem total_processEvents (events : List SloEvent) :
    ∀ e : PrometheusSloEventExporter, e.Configured →
      (e.processEvents events).1.eventsCount.total =
        e.eventsCount.total + (events.filter (fun ev => e.isValidResult ev.Result)).length := by
  induction events with
  | nil => intro e _; rfl
  | cons event rest ih =>
    intro e h
    have hc := configured_processEvent e event h
    have hex := processEvent_exporter e event
    rw [processEvents]
    cases hv : e.isValidResult event.Result with
    | false =>
      rw [processEvent_of_invalid e event hv]
      simp only [List.filter_cons, hv, Bool.false_eq_true, if_false]
      exact ih e h
    | true =>
      obtain ⟨e1, h1⟩ := processEvent_ok_of_configured e event h hv
      rw [h1] at hc hex ⊢
      simp only [List.filter_cons, hv, if_true, List.length_cons]
      have hcongr := @isValidResult_congr e e1 hex.2.2.1
      rw [ih e1 hc, hcongr, total_processEvent_ok e e1 event h1]
      omega

/-- C19. Conservation of events: on an exporter built by `New` whose event-key label
is one of its labels, after every finite sequence of events processed from the fresh
state (no panic cuts it short), the sum of the values of all series of
`slo_events_total` is the number of events of the sequence whose result is valid. -/
theorem events_are_conserved (labels : List String) (results : List SloEventResult)
    (eventKeyLabel : String) (L : Int) (hkey : eventKeyLabel ∈ labels)
    (events : List SloEvent) :
    ((New labels results eventKeyLabel L).processEvents events).2 = false ∧
      ((New labels results eventKeyLabel L).processEvents events).1.eventsCount.total =
        (events.filter (fun ev => decide (ev.Result ∈ results))).length := by
  have hconf := configured_New labels results eventKeyLabel L hkey
  refine ⟨processEvents_not_panicked events _ hconf, ?_⟩
  rw [total_processEvents events _ hconf]
  have h0 : (New labels results eventKeyLabel L).eventsCount.total = 0 := rfl
  have hpred : (fun ev : SloEvent => (New labels results eventKeyLabel L).isValidResult ev.Result)
      = (fun ev => decide (ev.Result ∈ results)) := by
    funext ev
    have := isValidResult_iff (New labels results eventKeyLabel L) ev.Result
    cases hb : (New labels results eventKeyLabel L).isValidResult ev.Result
    · have hn : ev.Result ∉ results := fun hm => by
        rw [this.mpr hm] at hb
        cases hb
      simp [hn]
    · have hm : ev.Result ∈ results := this.mp hb
      simp [hm]
  rw [h0, hpred, Nat.zero_add]

/-- C19, at a concrete input: limit 1, so that the second key is masked; three valid
events and one invalid. -/
theorem events_are_conserved_witness :
    "key" ∈ ["key"] ∧
      ((New ["key"] ["success", "fail"] "key" 1).processEvents
        [⟨"success", GoMap.empty.set "key" "a"⟩, ⟨"fail", GoMap.empty.set "key" "b"⟩,
          ⟨"bad", GoMap.empty.set "key" "a"⟩,
          ⟨"success", GoMap.empty.set "key" "c"⟩]).1.eventsCount.total = 3 :=
  ⟨by decide,
    (events_are_conserved ["key"] ["success", "fail"] "key" 1 (by decide)
      [⟨"success", GoMap.empty.set "key" "a"⟩, ⟨"fail", GoMap.empty.set "key" "b"⟩,
        ⟨"bad", GoMap.empty.set "key" "a"⟩, ⟨"success", GoMap.empty.set "key" "c"⟩]).2⟩

/-! ## Collected violations -/

theorem validateReferences_withThresholds {P T : Type} (d : Domain P T)
    (thresholds : List (BurnRateThreshold P)) :
    (d.withThresholds thresholds).validateReferences =
      (thresholds.map d.validateThreshold).flatten := by
  rw [Domain.validateReferences_eq]
  rfl

/-- The errors of one threshold, by the defect it has. -/
theorem mem_validateThreshold {P T : Type} (d : Domain P T) (t : BurnRateThreshold P) :
    (t.Condition.Class ≠ "" → d.Classes.contains t.Condition.Class = false →
        ("class '" ++ t.Condition.Class ++ "' referenced in condition not defined") ∈
          d.validateThreshold t) ∧
      (t.Condition.Type_ ≠ "" → t.Condition.Class ≠ "" →
        (¬ ∃ cls, d.Classes.lookup t.Condition.Class = some cls ∧
          cls.contains t.Condition.Type_ = true) →
        ("slo type '" ++ t.Condition.Type_ ++
            "' referenced in condition not defined for class '" ++ t.Condition.Class ++ "'") ∈
          d.validateThreshold t) ∧
      (t.Condition.Type_ ≠ "" → t.Condition.Class = "" →
        (¬ ∃ c cls, d.Classes.lookup c = some cls ∧ cls.contains t.Condition.Type_ = true) →
        ("slo type '" ++ t.Condition.Type_ ++
            "' referenced in condition not defined in any class") ∈ d.validateThreshold t) := by
  refine ⟨?_, ?_, ?_⟩
  · intro hc hm
    unfold Domain.validateThreshold
    apply List.mem_append_left
    simp [hc, hm]
  · intro ht hc hn
    rw [← GoMap.contains_getD_empty_iff] at hn
    unfold Domain.validateThreshold
    apply List.mem_append_right
    simp [ht, hc, hn]
  · intro ht hc hn
    rw [← GoMap.any_entries_contains_iff] at hn
    unfold Domain.validateThreshold
    apply List.mem_append_right
    simp [ht, hc, hn]

/-- C16. Violations are collected, not short-circuited: for the classes of `d`,
`validateReferences` on the thresholds `ts1 ++ ts2` is `validateReferences` on `ts1`
followed by `validateReferences` on `ts2`; so the defects of a threshold `t` stand in
the result between those of the thresholds before it and those of the thresholds
after it, whatever these are. The defects of `t` are none exactly when its references
are defined; a class that is named and not defined, a type that is named and not
defined in the named class, and a type that is named without a class and defined in
no class each put their message into the result. -/
theorem validateReferences_append {P T : Type} (d : Domain P T)
    (ts1 ts2 : List (BurnRateThreshold P)) :
    (d.withThresholds (ts1 ++ ts2)).validateReferences =
        (d.withThresholds ts1).validateReferences ++
          (d.withThresholds ts2).validateReferences ∧
      (∀ t post, (d.withThresholds (ts1 ++ t :: post)).validateReferences =
        (d.withThresholds ts1).validateReferences ++
          (d.withThresholds [t]).validateReferences ++
          (d.withThresholds post).validateReferences) ∧
      (∀ t, (d.withThresholds [t]).validateReferences = [] ↔
        ((t.Condition.Class ≠ "" → d.Classes.contains t.Condition.Class = true) ∧
          (t.Condition.Type_ ≠ "" → t.Condition.Class ≠ "" →
            ∃ cls, d.Classes.lookup t.Condition.Class = some cls ∧
              cls.contains t.Condition.Type_ = true) ∧
          (t.Condition.Type_ ≠ "" → t.Condition.Class = "" →
            ∃ c cls, d.Classes.lookup c = some cls ∧
              cls.contains t.Condition.Type_ = true))) ∧
      (∀ t post, t.Condition.Class ≠ "" → d.Classes.contains t.Condition.Class = false →
        ("class '" ++ t.Condition.Class ++ "' referenced in condition not defined") ∈
          (d.withThresholds (ts1 ++ t :: post)).validateReferences) ∧
      (∀ t post, t.Condition.Type_ ≠ "" → t.Condition.Class ≠ "" →
        (¬ ∃ cls, d.Classes.lookup t.Condition.Class = some cls ∧
          cls.contains t.Condition.Type_ = true) →
        ("slo type '" ++ t.Condition.Type_ ++
            "' referenced in condition not defined for class '" ++ t.Condition.Class ++ "'") ∈
          (d.withThresholds (ts1 ++ t :: post)).validateReferences) ∧
      (∀ t post, t.Condition.Type_ ≠ "" → t.Condition.Class = "" →
        (¬ ∃ c cls, d.Classes.lookup c = some cls ∧ cls.contains t.Condition.Type_ = true) →
        ("slo type '" ++ t.Condition.Type_ ++
            "' referenced in condition not defined in any class") ∈
          (d.withThresholds (ts1 ++ t :: post)).validateReferences) := by
  have hmem : ∀ (t : BurnRateThreshold P) (post : List (BurnRateThreshold P)) (msg : GoError),
      msg ∈ d.validateThreshold t →
        msg ∈ (d.withThresholds (ts1 ++ t :: post)).validateReferences := by
    intro t post msg h
    rw [validateReferences_withThresholds, List.mem_flatten]
    exact ⟨d.validateThreshold t, List.mem_map_of_mem _ (by simp), h⟩
  refine ⟨?_, ?_, ?_, ?_, ?_, ?_⟩
  · rw [validateReferences_withThresholds, validateReferences_withThresholds,
      validateReferences_withThresholds, List.map_append, List.flatten_append]
  · intro t post
    simp only [validateReferences_withThresholds, List.map_append, List.flatten_append,
      List.map_cons, List.flatten_cons, List.map_nil, List.flatten_nil, List.append_nil,
      List.append_assoc]
  · intro t
    rw [validateReferences_withThresholds]
    simp only [List.map_cons, List.map_nil, List.flatten_cons, List.flatten_nil,
      List.append_nil]
    exact Domain.validateThreshold_eq_nil_iff d t
  · intro t post hc hm
    exact hmem t post _ ((mem_validateThreshold d t).1 hc hm)
  · intro t post ht hc hn
    exact hmem t post _ ((mem_validateThreshold d t).2.1 ht hc hn)
  · intro t post ht hc hn
    exact hmem t post _ ((mem_validateThreshold d t).2.2 ht hc hn)

theorem contains_getD_of_undefined {T : Type} (classes : Classes T) (c t : String)
    (h : classes.contains c = false) :
    (classes.getD c GoMap.empty).contains t = false := by
  have hl : classes.lookup c = none := by
    cases hc : classes.lookup c with
    | none => rfl
    | some v => simp [GoMap.contains, hc] at h
  simp only [GoMap.getD, hl, Option.getD_none]
  rfl

/-- C20. For one burn-rate threshold `validateReferences` reports at most two
defects, and it reports exactly two exactly when `Condition.Class` is a non-empty `c`
that is not a key of `Classes` and `Condition.Type` is a non-empty `t`; the two are
then `class 'c' referenced in condition not defined` followed by `slo type 't'
referenced in condition not defined for class 'c'`. -/
theorem validateReferences_single {P T : Type} (d : Domain P T) (t : BurnRateThreshold P) :
    (d.withThresholds [t]).validateReferences.length ≤ 2 ∧
      ((d.withThresholds [t]).validateReferences.length = 2 ↔
        (t.Condition.Class ≠ "" ∧ d.Classes.contains t.Condition.Class = false ∧
          t.Condition.Type_ ≠ "")) ∧
      (t.Condition.Class ≠ "" → d.Classes.contains t.Condition.Class = false →
        t.Condition.Type_ ≠ "" →
        (d.withThresholds [t]).validateReferences =
          ["class '" ++ t.Condition.Class ++ "' referenced in condition not defined",
            "slo type '" ++ t.Condition.Type_ ++
              "' referenced in condition not defined for class '" ++ t.Condition.Class ++
              "'"]) := by
  rw [validateReferences_withThresholds]
  simp only [List.map_cons, List.map_nil, List.flatten_cons, List.flatten_nil, List.append_nil]
  unfold Domain.validateThreshold
  by_cases hc : t.Condition.Class = ""
  · by_cases ht : t.Condition.Type_ = ""
    · simp [hc, ht]
    · by_cases h3 : d.Classes.entries.any (fun kv => kv.2.contains t.Condition.Type_) = true
      · simp [hc, ht, h3]
      · simp [hc, ht, h3]
  · by_cases h1 : d.Classes.contains t.Condition.Class = true
    · by_cases ht : t.Condition.Type_ = ""
      · simp [hc, ht, h1]
      · by_cases h2 : (d.Classes.getD t.Condition.Class GoMap.empty).contains
            t.Condition.Type_ = true
        · simp [hc, ht, h1, h2]
        · simp [hc, ht, h1, h2]
    · have h1f : d.Classes.contains t.Condition.Class = false := by
        cases hb : d.Classes.contains t.Condition.Class
        · rfl
        · exact absurd hb h1
      have h2 := contains_getD_of_undefined d.Classes t.Condition.Class t.Condition.Type_ h1f
      by_cases ht : t.Condition.Type_ = ""
      · simp [hc, ht, h1f]
      · simp [hc, ht, h1f, h2]

end SloExporter
